import Mathlib

/-!
# MoodPad — verification of the mood-record store and analytics engine

Shallow embedding of the MoodPad repository's core (src/js/storage.js,
src/js/stats.js, src/js/features.js) and proofs about the claims of its
specification.

Modelling conventions:

* The persisted entry collection (`localStorage` under `moodpad_moods`) is
  modelled as the explicit state value `List MoodEntry`; every store
  function takes the collection and returns the updated one.
* Date strings: the application stores calendar dates as ISO `YYYY-MM-DD`
  strings and compares them with `new Date(...)` arithmetic.  For such a
  string, a JavaScript `Date` is (UTC-)midnight of that calendar day, so
  comparisons and day-stepping are exactly arithmetic on the epoch-day
  number.  `epochDay` below parses `YYYY-MM-DD` and returns the epoch-day
  count (1970-01-01 = day 0) via the standard days-from-civil algorithm;
  strings that are not well-formed ISO dates give `none`, modelling an
  Invalid Date (`NaN`).  JavaScript's fallback parsing of non-ISO strings
  is implementation-defined and outside the model; the application only
  produces `YYYY-MM-DD` strings.  The host timezone is taken to be UTC, so
  `getFullYear`/`getMonth`/`getDay` of a parsed date-only string agree with
  the string's own components.
* `new Date(invalid) < x`, `NaN === NaN` and arithmetic on `NaN` are all
  false-producing in JavaScript; the corresponding branches are translated
  explicitly on the `Option Int` value of `epochDay`.
* `Array.prototype.sort` is stable (ES2019); it is modelled by Mathlib's
  stable `List.insertionSort` with the comparator's preorder.
* `new Date().toISOString()` timestamps are modelled by an explicit `now`
  parameter (an opaque integer), and "today" for streak computations by an
  explicit epoch-day parameter, matching the specification's injectable
  clock.
-/

namespace MoodPad

/-- One mood record, as stored in the `moodpad_moods` collection
(src/js/storage.js `saveMood`): date string (`YYYY-MM-DD`), emoji, note,
tags, and last-write timestamp. -/
structure MoodEntry where
  date : String
  emoji : String
  note : String
  tags : List String
  timestamp : Int
deriving Repr, DecidableEq

/-! ## Date strings and epoch days -/

/-- Decimal digit test for a character. -/
def isDigitCh (c : Char) : Bool := '0' ≤ c && c ≤ '9'

/-- Numeric value of a decimal digit character. -/
def digitVal (c : Char) : Nat := c.toNat - '0'.toNat

/-- Parse a `YYYY-MM-DD` string into its `(year, month, day)` components
without validating the calendar values. -/
def parseYMD (s : String) : Option (Nat × Nat × Nat) :=
  match s.data with
  | [y1, y2, y3, y4, c1, m1, m2, c2, d1, d2] =>
    if isDigitCh y1 && isDigitCh y2 && isDigitCh y3 && isDigitCh y4 &&
       c1 = '-' && isDigitCh m1 && isDigitCh m2 &&
       c2 = '-' && isDigitCh d1 && isDigitCh d2 then
      some (digitVal y1 * 1000 + digitVal y2 * 100 + digitVal y3 * 10 + digitVal y4,
            digitVal m1 * 10 + digitVal m2,
            digitVal d1 * 10 + digitVal d2)
    else none
  | _ => none

/-- Gregorian leap-year test. -/
def isLeap (y : Nat) : Bool := (y % 4 = 0 && y % 100 ≠ 0) || y % 400 = 0

/-- Number of days in a month of a given year. -/
def daysInMonth (y m : Nat) : Nat :=
  if m = 1 then 31 else if m = 2 then (if isLeap y then 29 else 28)
  else if m = 3 then 31 else if m = 4 then 30 else if m = 5 then 31
  else if m = 6 then 30 else if m = 7 then 31 else if m = 8 then 31
  else if m = 9 then 30 else if m = 10 then 31 else if m = 11 then 30
  else 31

/-- Calendar validity of a `(year, month, day)` triple.  A JavaScript
`Date` built from an ISO string with out-of-range components is an
Invalid Date. -/
def validYMD (y m d : Nat) : Bool :=
  1 ≤ m && m ≤ 12 && 1 ≤ d && d ≤ daysInMonth y m

/-- Days since 1970-01-01 of a civil date (Howard Hinnant's
days-from-civil algorithm, as used by every correct `Date`
implementation). -/
def daysFromCivil (y m d : Nat) : Int :=
  let y' := if m ≤ 2 then y - 1 else y
  let era := y' / 400
  let yoe := y' % 400
  let mp := if 2 < m then m - 3 else m + 9
  let doy := (153 * mp + 2) / 5 + d - 1
  let doe := yoe * 365 + yoe / 4 - yoe / 100 + doy
  (era * 146097 + doe : Int) - 719468

/-- Epoch-day value of a date string: `some` of the day count for a
well-formed, calendar-valid `YYYY-MM-DD` string, `none` (an Invalid Date)
otherwise.  This models `new Date(dateString).getTime() / 86400000` for
the strings the application handles. -/
def epochDay (s : String) : Option Int :=
  match parseYMD s with
  | some (y, m, d) => if validYMD y m d then some (daysFromCivil y m d) else none
  | none => none

/-- Sort key used by the store's date comparators
(`new Date(b.date) - new Date(a.date)`); an Invalid Date has no meaningful
key, `0` is an arbitrary stand-in used only outside the claims' domain of
valid dates. -/
def dkey (m : MoodEntry) : Int := (epochDay m.date).getD 0

/-- Descending-by-date ordering used by the store: `a` precedes `b` when
`a`'s date is the more recent (`storage.js` line 74). -/
def moodDesc (a b : MoodEntry) : Prop := dkey b ≤ dkey a

instance : DecidableRel moodDesc := fun a b => Int.decLe _ _

instance : IsTotal MoodEntry moodDesc :=
  ⟨fun a b => (Int.le_total (dkey b) (dkey a)).imp id id⟩

instance : IsTrans MoodEntry moodDesc :=
  ⟨fun _ _ _ h1 h2 => le_trans h2 h1⟩

/-- Ascending-by-date ordering (`stats.js` line 95). -/
def moodAsc (a b : MoodEntry) : Prop := dkey a ≤ dkey b

instance : DecidableRel moodAsc := fun a b => Int.decLe _ _

instance : IsTotal MoodEntry moodAsc :=
  ⟨fun a b => (Int.le_total (dkey a) (dkey b)).imp id id⟩

instance : IsTrans MoodEntry moodAsc :=
  ⟨fun _ _ _ h1 h2 => le_trans h1 h2⟩

/-! ## JavaScript string helpers used by the store and the CSV codec -/

/-- The whitespace characters relevant to `String.prototype.trim` for the
strings this application handles. -/
def isWS (c : Char) : Bool := c = ' ' || c = '\t' || c = '\n' || c = '\r'

/-- Character-list version of `String.prototype.trim`. -/
def trimChars (l : List Char) : List Char :=
  ((l.dropWhile isWS).reverse.dropWhile isWS).reverse

/-- `String.prototype.trim`. -/
def jsTrim (s : String) : String := ⟨trimChars s.data⟩

/-- Character-list split on a separator character; like
`String.prototype.split`, always returns at least one (possibly empty)
piece. -/
def splitCh (sep : Char) : List Char → List (List Char)
  | [] => [[]]
  | c :: cs =>
    match splitCh sep cs with
    | [] => [[]]
    | l :: ls => if c = sep then [] :: l :: ls else (c :: l) :: ls

/-- `String.prototype.split` with a single-character separator. -/
def jsSplit (sep : Char) (s : String) : List String :=
  (splitCh sep s.data).map fun l => ⟨l⟩

/-- ASCII lower-casing, modelling `String.prototype.toLowerCase` on the
header strings the codec handles. -/
def jsToLower (s : String) : String := ⟨s.data.map Char.toLower⟩

/-- Substring occurrence test on character lists (`String.prototype.includes`). -/
def hasInfix (needle : List Char) : List Char → Bool
  | [] => needle.isPrefixOf ([] : List Char)
  | c :: cs => needle.isPrefixOf (c :: cs) || hasInfix needle cs

/-- `String.prototype.includes`. -/
def jsIncludes (hay needle : String) : Bool := hasInfix needle.data hay.data

/-- `Array.prototype.indexOf` on string lists: index of the first exact
match, `-1` if absent. -/
def jsIndexOf (l : List String) (x : String) : Int :=
  match l with
  | [] => -1
  | a :: rest => if a = x then 0 else
      match jsIndexOf rest x with
      | -1 => -1
      | i => i + 1

/-- JavaScript indexing `values[i]` where an out-of-range or negative index
yields `undefined`: both `undefined` and the empty string are falsy, and
the value is used only behind a truthiness test, so `undefined` is
modelled by `""`. -/
def jsAt (values : List String) (i : Int) : String :=
  if h : 0 ≤ i ∧ i.toNat < values.length then values.get ⟨i.toNat, h.2⟩ else ""

/-! ## Entry Store (src/js/storage.js) -/

/-- `getAllMoods` (storage.js lines 12-20): returns the persisted
collection; the storage-corruption fallback to `[]` is a property of the
out-of-scope storage collaborator and the state value here is always the
collection itself. -/
def getAllMoods (store : List MoodEntry) : List MoodEntry := store

/-- `getMood` (storage.js lines 39-42): first entry with the exact date
string, if any. -/
def getMood (store : List MoodEntry) (date : String) : Option MoodEntry :=
  store.find? fun m => m.date = date

/-- Replace the first entry carrying the given entry's date
(`moods[existingIndex] = moodEntry` after `findIndex`). -/
def replaceFirst (entry : MoodEntry) : List MoodEntry → List MoodEntry
  | [] => []
  | m :: rest =>
    if m.date = entry.date then entry :: rest else m :: replaceFirst entry rest

/-- `saveMood` (storage.js lines 51-78).  `tags? = none` models an omitted
(or `null`) tags argument; `now` models `new Date().toISOString()`.
Returns the stored entry and the new collection, which is re-sorted by
date descending before persisting. -/
def saveMood (now : Int) (store : List MoodEntry) (date emoji : String)
    (note : String := "") (tags? : Option (List String) := none) :
    MoodEntry × List MoodEntry :=
  let existing := store.find? fun m => m.date = date
  let moodTags := match tags? with
    | some t => t
    | none => match existing with
      | some old => old.tags
      | none => []
  let entry : MoodEntry :=
    { date := date, emoji := emoji, note := jsTrim note, tags := moodTags,
      timestamp := now }
  let moods := match existing with
    | some _ => replaceFirst entry store
    | none => store ++ [entry]
  (entry, moods.insertionSort moodDesc)

/-- `deleteMood` (storage.js lines 84-88). -/
def deleteMood (store : List MoodEntry) (date : String) : List MoodEntry :=
  store.filter fun m => m.date ≠ date

/-- `getMoodsForMonth` (storage.js lines 103-109): entries whose parsed
date has the given year and 0-indexed month (`getFullYear`/`getMonth`);
entries with Invalid Dates never match. -/
def getMoodsForMonth (store : List MoodEntry) (year month0 : Nat) : List MoodEntry :=
  store.filter fun m =>
    match parseYMD m.date with
    | some (y, mo, d) => validYMD y mo d && y = year && mo - 1 = month0
    | none => false

/-! ## CSV export (storage.js `exportToCSV`) -/

/-- Double every `"` in a note, as `note.replace(/"/g, '""')` does. -/
def escQuotes : List Char → List Char
  | [] => []
  | c :: cs => if c = '"' then '"' :: '"' :: escQuotes cs else c :: escQuotes cs

/-- One CSV data row (`storage.js` lines 120-124): unquoted date and
emoji, the note wrapped in double quotes with internal quotes doubled. -/
def csvRow (m : MoodEntry) : String :=
  m.date ++ "," ++ m.emoji ++ ",\"" ++ (⟨escQuotes m.note.data⟩ : String) ++ "\""

/-- Join lines with `\n` (`[...].join('\n')`). -/
def joinLines : List String → String
  | [] => ""
  | [s] => s
  | s :: rest => s ++ "\n" ++ joinLines rest

/-- `exportToCSV` (storage.js lines 115-127): empty string on an empty
collection, otherwise header plus one row per entry in collection
order. -/
def exportToCSV (store : List MoodEntry) : String :=
  if store.isEmpty then ""
  else joinLines ("Date,Emoji,Note" :: store.map csvRow)

/-! ## Stats module (src/js/stats.js) -/

/-- The emoji-to-numeric table of stats.js lines 9-17 and features.js
lines 214-216, with the `|| 3` fallback for unmapped emojis. -/
def emojiValue (e : String) : Nat :=
  if e = "😍" then 5
  else if e = "😊" then 4
  else if e = "😐" then 3
  else if e = "😴" then 2
  else if e = "😰" then 2
  else if e = "😢" then 1
  else if e = "😠" then 1
  else 3

/-- The emoji tally object built by `forEach` loops such as stats.js
lines 26-29: an association list in first-encounter key order (JavaScript
object keys for these non-index strings iterate in insertion order). -/
def bump : List (String × Nat) → String → List (String × Nat)
  | [], e => [(e, 1)]
  | (k, c) :: rest, e =>
    if k = e then (k, c + 1) :: rest else (k, c) :: bump rest e

/-- Tally of a list of emojis, in first-encounter key order. -/
def tally (emojis : List String) : List (String × Nat) := emojis.foldl bump []

/-- The strictly-greater maximum scan of stats.js lines 31-39: starting
from `maxCount = 0`, `mostCommon = null`, each `(emoji, count)` pair with
`count > maxCount` becomes the new champion. -/
def pickFirstMax : List (String × Nat) → Option (String × Nat) → Option (String × Nat)
  | [], best => best
  | (k, c) :: rest, best =>
    let mc := match best with
      | some kc => kc.2
      | none => 0
    if mc < c then pickFirstMax rest (some (k, c)) else pickFirstMax rest best

/-- `getMostCommonMood` (stats.js lines 22-42). -/
def getMostCommonMood (store : List MoodEntry) (year month0 : Nat) : Option String :=
  let moods := getMoodsForMonth store year month0
  if moods.isEmpty then none
  else (pickFirstMax (tally (moods.map (·.emoji))) none).map (·.1)

/-- The backward walk of `getCurrentStreak` (stats.js lines 68-82):
`expected` is the epoch day of the previous run member (a `none` models
the Invalid-Date `NaN`, whose equality comparison is always false);
each iteration first steps `expected` back one day and then compares. -/
def streakWalk (expected : Option Int) : List MoodEntry → Nat → Nat
  | [], streak => streak
  | m :: rest, streak =>
    let expected' := expected.map (· - 1)
    match epochDay m.date, expected' with
    | some c, some e =>
      if c = e then streakWalk expected' rest (streak + 1) else streak
    | _, _ => streak

/-- `getCurrentStreak` (stats.js lines 47-85), with "today" supplied as an
epoch day.  `latestDate < yesterday` is false when the latest date is
Invalid (`NaN < x`), so the walk still starts in that case. -/
def getCurrentStreak (today : Int) (moods : List MoodEntry) : Nat :=
  match moods.insertionSort moodDesc with
  | [] => 0
  | latest :: rest =>
    match epochDay latest.date with
    | some l => if l < today - 1 then 0 else streakWalk (some l) rest 1
    | none => streakWalk none rest 1

/-- The forward scan of `getLongestStreak` (stats.js lines 100-113):
`diffDays` is the epoch-day difference to the previous element; a `NaN`
difference (either date Invalid) satisfies neither `=== 1` nor `> 1` and
is skipped like a zero difference. -/
def longWalk (prev : MoodEntry) : List MoodEntry → Nat → Nat → Nat
  | [], _, maxStreak => maxStreak
  | m :: rest, cur, maxStreak =>
    match epochDay m.date, epochDay prev.date with
    | some c, some p =>
      if c - p = 1 then longWalk m rest (cur + 1) (max maxStreak (cur + 1))
      else if 1 < c - p then longWalk m rest 1 maxStreak
      else longWalk m rest cur maxStreak
    | _, _ => longWalk m rest cur maxStreak

/-- `getLongestStreak` (stats.js lines 90-116). -/
def getLongestStreak (moods : List MoodEntry) : Nat :=
  match moods.insertionSort moodAsc with
  | [] => 0
  | first :: rest => longWalk first rest 1 1

/-- `getTotalEntries` (stats.js lines 121-123). -/
def getTotalEntries (store : List MoodEntry) : Nat := store.length

/-! ## Tags system (src/js/features.js lines 100-122) -/

/-- `addTagToMood` (features.js lines 100-110): appends the tag to the
entry's tags and re-saves, but only when the tag is not already present;
returns the (possibly unchanged) tag list, or `none` when there is no
entry for the date.  The store is returned alongside, unchanged when no
save happens. -/
def addTagToMood (now : Int) (store : List MoodEntry) (date tag : String) :
    Option (List String) × List MoodEntry :=
  match getMood store date with
  | none => (none, store)
  | some mood =>
    let tags := mood.tags
    if tag ∈ tags then (some tags, store)
    else
      let tags' := tags ++ [tag]
      (some tags', (saveMood now store date mood.emoji mood.note (some tags')).2)

/-- `removeTagFromMood` (features.js lines 115-122): filters the tag out
and re-saves; `none` when there is no entry for the date. -/
def removeTagFromMood (now : Int) (store : List MoodEntry) (date tag : String) :
    Option (List String) × List MoodEntry :=
  match getMood store date with
  | none => (none, store)
  | some mood =>
    let tags := mood.tags.filter (· ≠ tag)
    (some tags, (saveMood now store date mood.emoji mood.note (some tags)).2)

/-! ## Weekly insights (src/js/features.js lines 204-309) -/

/-- Day-of-week index of an epoch day, as `Date.prototype.getDay` returns
it: 0 = Sunday … 6 = Saturday (1970-01-01 = day 0 was a Thursday). -/
def weekdayOf (d : Int) : Nat := ((d + 4) % 7).toNat

/-- The `WEEKDAYS` table of features.js line 190. -/
def WEEKDAYS : List String :=
  ["Sunday", "Monday", "Tuesday", "Wednesday", "Thursday", "Friday", "Saturday"]

/-- One step of the `dayStats` accumulation (features.js lines 218-222):
add the entry's mood value and bump the count at the entry's weekday. -/
def dayStep (stats : Nat → Nat × Nat) (m : MoodEntry) : Nat → Nat × Nat :=
  match epochDay m.date with
  | some d =>
    fun i => if i = weekdayOf d
             then ((stats (weekdayOf d)).1 + emojiValue m.emoji,
                   (stats (weekdayOf d)).2 + 1)
             else stats i
  | none => stats

/-- The `dayStats` accumulation of features.js lines 211-222 as a function
from weekday index to `(total, count)`.  An entry with an Invalid Date
would make the original code fault (`dayStats[undefined]`); such entries
are outside the modelled domain and are skipped. -/
def weekdayStats (moods : List MoodEntry) : Nat → Nat × Nat :=
  moods.foldl dayStep (fun _ => (0, 0))

/-- One step of the best/worst-day scan (features.js lines 228-234): a
weekday takes part only with `count ≥ 2`; its average `total / count`
replaces the best (worst) champion exactly when strictly greater (less),
with the averages compared exactly by cross-multiplication.  Each
champion is `(day?, total, count)`; the seeds `bestAvg = 0` and
`worstAvg = 5` are the fractions `0/1` and `5/1`. -/
def bwStep (stats : Nat → Nat × Nat)
    (st : (Option Nat × Nat × Nat) × (Option Nat × Nat × Nat)) (w : Nat) :
    (Option Nat × Nat × Nat) × (Option Nat × Nat × Nat) :=
  let t := (stats w).1
  let c := (stats w).2
  if 2 ≤ c then
    (if st.1.2.1 * c < t * st.1.2.2 then (some w, t, c) else st.1,
     if t * st.2.2.2 < st.2.2.1 * c then (some w, t, c) else st.2)
  else st

/-- The best/worst scan of features.js lines 225-234 over the seven
weekdays in `WEEKDAYS` (= object insertion) order; returns
`(bestDay?, worstDay?)` as weekday indices. -/
def bestWorstDay (stats : Nat → Nat × Nat) : Option Nat × Option Nat :=
  let r := (List.range 7).foldl (bwStep stats) ((none, 0, 1), (none, 5, 1))
  (r.1.1, r.2.1)

/-- One generated insight: its category tag and display text
(features.js lines 236-272). -/
structure Insight where
  itype : String
  text : String
deriving Repr, DecidableEq

/-- `getCurrentStreakDays` (features.js lines 277-309), the private streak
helper that feeds the achievement insight; the walk reuses `streakWalk`,
which is the verbatim translation of its identical loop. -/
def getCurrentStreakDays (today : Int) (moods : List MoodEntry) : Nat :=
  match moods.insertionSort moodDesc with
  | [] => 0
  | latest :: rest =>
    match epochDay latest.date with
    | some l => if l < today - 1 then 0 else streakWalk (some l) rest 1
    | none => streakWalk none rest 1

/-- `Math.round(count / total * 100)` for the most-frequent-mood
percentage (features.js line 258): `Math.round(x) = ⌊x + 1/2⌋` for the
non-negative values arising here. -/
def pctRound (count total : Nat) : Nat := (200 * count + total) / (2 * total)

/-- `generateWeeklyInsights` (features.js lines 204-275), with "today"
supplied as an epoch day for the streak insight. -/
def generateWeeklyInsights (today : Int) (moods : List MoodEntry) : List Insight :=
  if moods.length < 7 then []
  else
    let stats := weekdayStats moods
    let (bestDay, worstDay) := bestWorstDay stats
    let bestIns : List Insight := match bestDay with
      | some w =>
        [⟨"positive", "You tend to feel happiest on <span class=\"insight-card__highlight\">"
            ++ (WEEKDAYS.getD w "") ++ "s</span>!"⟩]
      | none => []
    let worstIns : List Insight := match worstDay with
      | some w =>
        if bestDay ≠ some w then
          [⟨"info", "<span class=\"insight-card__highlight\">" ++ (WEEKDAYS.getD w "")
              ++ "s</span> tend to be tougher. Consider planning something nice!"⟩]
        else []
      | none => []
    let statIns : List Insight := match pickFirstMax (tally (moods.map (·.emoji))) none with
      | some (e, c) =>
        [⟨"stat", "Your most frequent mood is " ++ e
            ++ " (<span class=\"insight-card__highlight\">"
            ++ toString (pctRound c moods.length)
            ++ "%</span> of entries)"⟩]
      | none => []
    let streak := getCurrentStreakDays today moods
    let streakIns : List Insight :=
      if 7 ≤ streak then
        [⟨"achievement", "Amazing! You've logged your mood for <span class=\"insight-card__highlight\">"
            ++ toString streak ++ " days</span> in a row!"⟩]
      else []
    bestIns ++ worstIns ++ statIns ++ streakIns

/-! ## CSV import (src/js/features.js lines 621-682) -/

/-- `parseCSVLine`'s character loop (features.js lines 659-677): a `"`
toggles the in-quotes state and is dropped; a `,` outside quotes ends the
current value; every finished value is trimmed.  `acc` holds the current
value's characters in reverse. -/
def parseCSVLineAux : List Char → List Char → Bool → List String
  | [], acc, _ => [jsTrim ⟨acc.reverse⟩]
  | c :: rest, acc, inQuotes =>
    if c = '"' then parseCSVLineAux rest acc (!inQuotes)
    else if c = ',' && !inQuotes then
      jsTrim ⟨acc.reverse⟩ :: parseCSVLineAux rest [] inQuotes
    else parseCSVLineAux rest (c :: acc) inQuotes

/-- `parseCSVLine` (features.js lines 659-677). -/
def parseCSVLine (line : String) : List String :=
  parseCSVLineAux line.data [] false

/-- `note.replace(/^"|"$/g, '')`: removes one leading and one trailing
double-quote character, when present. -/
def stripOuterQuotes (s : String) : String :=
  let l := match s.data with
    | '"' :: rest => rest
    | other => other
  ⟨match l.reverse with
    | '"' :: rest => rest.reverse
    | _ => l⟩

/-- `isValidDate` (features.js lines 679-682): `new Date(dateStr)` is not
`NaN`.  Modelled for the ISO `YYYY-MM-DD` strings the codec round-trips;
JavaScript's fallback parsing of other formats is implementation-defined
and outside the model. -/
def isValidDate (s : String) : Bool := (epochDay s).isSome

/-- One iteration of the import loop (features.js lines 639-654) over a
raw line, carrying the `(imported, store)` state. -/
def importRow (now : Int) (dateIndex emojiIndex noteIndex : Int)
    (st : Nat × List MoodEntry) (rawLine : String) : Nat × List MoodEntry :=
  let line := jsTrim rawLine
  if line = "" then st
  else
    let values := parseCSVLine line
    let date := jsAt values dateIndex
    let emoji := jsAt values emojiIndex
    let note := if 0 ≤ noteIndex then jsAt values noteIndex else ""
    if date ≠ "" && emoji ≠ "" && isValidDate date then
      (st.1 + 1, (saveMood now st.2 date emoji (stripOuterQuotes note)).2)
    else st

/-- `importFromCSV` (features.js lines 621-657): header validation by
case-insensitive substring tests, column location by exact token match,
then a merge of every importable row into the store via `saveMood`.
Thrown errors are modelled with `Except.error` of the message. -/
def importFromCSV (now : Int) (store : List MoodEntry) (csvContent : String) :
    Except String (Nat × List MoodEntry) :=
  let lines := jsSplit '\n' (jsTrim csvContent)
  if lines.length < 2 then .error "CSV file is empty or has no data rows"
  else
    let header := jsToLower (lines.headD "")
    if !(jsIncludes header "date") || !(jsIncludes header "emoji") then
      .error "CSV must have Date and Emoji columns"
    else
      let headers := (jsSplit ',' header).map jsTrim
      let dateIndex := jsIndexOf headers "date"
      let emojiIndex := jsIndexOf headers "emoji"
      let noteIndex := jsIndexOf headers "note"
      .ok ((lines.drop 1).foldl (importRow now dateIndex emojiIndex noteIndex) (0, store))

/-! ## Store operations and the ordering contract -/

/-- The store's ordering contract: the persisted collection is pairwise
descending in the date key. -/
def sortedByDateDesc (l : List MoodEntry) : Prop := l.Sorted moodDesc

/-- A store operation: `save`, `delete`, or CSV import (which leaves the
store unchanged when it throws). -/
inductive StoreOp where
  | save (now : Int) (date emoji note : String) (tags? : Option (List String))
  | del (date : String)
  | imp (now : Int) (csv : String)

/-- Apply one operation to the persisted collection. -/
def applyOp (store : List MoodEntry) : StoreOp → List MoodEntry
  | .save now d e n t => (saveMood now store d e n t).2
  | .del d => deleteMood store d
  | .imp now csv =>
    match importFromCSV now store csv with
    | .ok r => r.2
    | .error _ => store

/-- Apply a sequence of operations, oldest first. -/
def applyOps (ops : List StoreOp) (store : List MoodEntry) : List MoodEntry :=
  ops.foldl applyOp store

/-! ## Specification-side helpers for the streak claims -/

/-- Length of the initial segment of `ks` that counts down `E-1, E-2, …`
one day at a time — the specification's "consecutive calendar days,
terminating at the first gap", read off a descending key list. -/
def consecPrefix : Int → List Int → Nat
  | _, [] => 0
  | e, k :: ks => if k = e - 1 then consecPrefix (e - 1) ks + 1 else 0

/-- The specification's current-streak example collection: entries on
2024-12-06, 2024-12-07 and 2024-12-08. -/
def streakExample : List MoodEntry :=
  [⟨"2024-12-06", "😊", "", [], 0⟩, ⟨"2024-12-07", "😊", "", [], 0⟩,
   ⟨"2024-12-08", "😊", "", [], 0⟩]

/-- The specification's longest-streak example collection: entries on
2024-01-01, 2024-01-02, 2024-01-05, 2024-01-06 and 2024-01-07. -/
def longestExample : List MoodEntry :=
  [⟨"2024-01-01", "😊", "", [], 0⟩, ⟨"2024-01-02", "😊", "", [], 0⟩,
   ⟨"2024-01-05", "😊", "", [], 0⟩, ⟨"2024-01-06", "😊", "", [], 0⟩,
   ⟨"2024-01-07", "😊", "", [], 0⟩]

/-! ## Specification-side helpers for the most-common-mood claim -/

/-- The distinct elements of a sequence in first-encounter order — the
specification's deterministic tie-break order for "most common mood". -/
def firstEncounterOrder : List String → List String
  | [] => []
  | e :: es => e :: (firstEncounterOrder es).filter (· ≠ e)

/-- Number of occurrences of `k` in `l`. -/
def cnt (k : String) (l : List String) : Nat := l.countP fun x => x = k

/-- Maximum of a list of naturals, 0 for the empty list. -/
def maxNat : List Nat → Nat
  | [] => 0
  | x :: l => max x (maxNat l)

/-- Number of entries whose (valid) date falls on weekday `w`
(0 = Sunday). -/
def entriesOnWeekday (moods : List MoodEntry) (w : Nat) : Nat :=
  moods.countP fun m =>
    match epochDay m.date with
    | some d => weekdayOf d = w
    | none => false

/-- An 8-entry collection covering 2024-12-01 through 2024-12-08 (two
Sundays), used to witness the weekly-insights claim. -/
def insightExample : List MoodEntry :=
  [⟨"2024-12-01", "😊", "", [], 0⟩, ⟨"2024-12-02", "😍", "", [], 0⟩,
   ⟨"2024-12-03", "😢", "", [], 0⟩, ⟨"2024-12-04", "😊", "", [], 0⟩,
   ⟨"2024-12-05", "😴", "", [], 0⟩, ⟨"2024-12-06", "😊", "", [], 0⟩,
   ⟨"2024-12-07", "😰", "", [], 0⟩, ⟨"2024-12-08", "😊", "", [], 0⟩]

/-- The import-loop acceptance test for one raw CSV line (features.js
lines 640-650): the trimmed line is non-blank, the date and emoji fields
at the token-located column indices are non-empty, and the date is
valid. -/
def rowImportable (dI eI : Int) (rawLine : String) : Bool :=
  jsTrim rawLine ≠ "" &&
  jsAt (parseCSVLine (jsTrim rawLine)) dI ≠ "" &&
  jsAt (parseCSVLine (jsTrim rawLine)) eI ≠ "" &&
  isValidDate (jsAt (parseCSVLine (jsTrim rawLine)) dI)

/-- The store mutation one imported CSV row performs: `saveMood` on the
row's date, emoji and outer-quote-stripped note (features.js line 651). -/
def rowSave (now dI eI nI : Int) (store : List MoodEntry) (rawLine : String) :
    List MoodEntry :=
  (saveMood now store (jsAt (parseCSVLine (jsTrim rawLine)) dI)
    (jsAt (parseCSVLine (jsTrim rawLine)) eI)
    (stripOuterQuotes (if 0 ≤ nI then jsAt (parseCSVLine (jsTrim rawLine)) nI else ""))).2

/-- The hygiene conditions under which a stored entry survives the CSV
round-trip: the date is a valid `YYYY-MM-DD` string, the emoji is
non-empty and free of quote, comma, newline and whitespace characters,
and the note is free of quote and newline characters and fixed by
`trim` (the field parser trims every field, and the quote-dropping
parser erases any quote character of the note). -/
def cleanEntry (m : MoodEntry) : Prop :=
  (epochDay m.date).isSome = true ∧
  m.emoji ≠ "" ∧
  (∀ c ∈ m.emoji.data, c ≠ '"' ∧ c ≠ ',' ∧ c ≠ '\n' ∧ isWS c = false) ∧
  (∀ c ∈ m.note.data, c ≠ '"' ∧ c ≠ '\n') ∧
  jsTrim m.note = m.note

/-! ## Helper lemmas about the store -/

theorem replaceFirst_map_date (e : MoodEntry) (l : List MoodEntry) :
    (replaceFirst e l).map (·.date) = l.map (·.date) := by
  induction l with
  | nil => rfl
  | cons m rest ih =>
    by_cases h : m.date = e.date
    · simp [replaceFirst, h]
    · simp [replaceFirst, h, ih]

theorem mem_replaceFirst (e : MoodEntry) {l : List MoodEntry} {x : MoodEntry}
    (hx : x ∈ replaceFirst e l) : x = e ∨ x ∈ l := by
  induction l with
  | nil => simp [replaceFirst] at hx
  | cons m rest ih =>
    by_cases h : m.date = e.date
    · simp only [replaceFirst, if_pos h] at hx
      rcases List.mem_cons.mp hx with h1 | h1
      · exact Or.inl h1
      · exact Or.inr (List.mem_cons_of_mem _ h1)
    · simp only [replaceFirst, if_neg h] at hx
      rcases List.mem_cons.mp hx with h1 | h1
      · exact Or.inr (h1 ▸ List.mem_cons_self _ _)
      · rcases ih h1 with h2 | h2
        · exact Or.inl h2
        · exact Or.inr (List.mem_cons_of_mem _ h2)

theorem replaceFirst_mem_self {e : MoodEntry} {l : List MoodEntry}
    (h : ∃ m ∈ l, m.date = e.date) : e ∈ replaceFirst e l := by
  induction l with
  | nil => simp at h
  | cons m rest ih =>
    by_cases hm : m.date = e.date
    · simp [replaceFirst, hm]
    · obtain ⟨m', hm', hd⟩ := h
      rcases List.mem_cons.mp hm' with rfl | hmem
      · exact absurd hd hm
      · simp only [replaceFirst, if_neg hm]
        exact List.mem_cons_of_mem _ (ih ⟨m', hmem, hd⟩)

/-- `find?` returns the element when exactly the members equal to it
satisfy the predicate. -/
theorem find?_eq_of_unique {α : Type} {p : α → Bool} {l : List α} {a : α}
    (ha : a ∈ l) (hpa : p a = true) (huniq : ∀ b ∈ l, p b = true → b = a) :
    l.find? p = some a := by
  induction l with
  | nil => simp at ha
  | cons x rest ih =>
    by_cases hx : p x = true
    · have hthis : x = a := huniq x (List.mem_cons_self _ _) hx
      simp [List.find?, hx, hthis, hpa]
    · have hxa : x ≠ a := fun h => hx (h ▸ hpa)
      have ha' : a ∈ rest := by
        rcases List.mem_cons.mp ha with h | h
        · exact absurd h.symm hxa
        · exact h
      simp only [List.find?]
      rw [Bool.eq_false_iff.mpr hx]
      exact ih ha' fun b hb hpb => huniq b (List.mem_cons_of_mem _ hb) hpb

/-- Sorting permutes the collection. -/
theorem sortDesc_perm (l : List MoodEntry) : List.Perm (l.insertionSort moodDesc) l :=
  List.perm_insertionSort moodDesc l

theorem sortAsc_perm (l : List MoodEntry) : List.Perm (l.insertionSort moodAsc) l :=
  List.perm_insertionSort moodAsc l

/-- Under date-uniqueness, a member of `replaceFirst entry l` carrying
`entry`'s date is `entry` itself. -/
theorem eq_of_mem_replaceFirst_of_nodup {entry m : MoodEntry} {l : List MoodEntry}
    (hnd : (l.map (·.date)).Nodup) (hm : m ∈ replaceFirst entry l)
    (hd : m.date = entry.date) : m = entry := by
  induction l with
  | nil => simp [replaceFirst] at hm
  | cons x rest ih =>
    rw [List.map_cons, List.nodup_cons] at hnd
    by_cases hx : x.date = entry.date
    · simp only [replaceFirst, if_pos hx] at hm
      rcases List.mem_cons.mp hm with h | h
      · exact h
      · exact absurd (by rw [hx, ← hd]; exact List.mem_map_of_mem _ h) hnd.1
    · simp only [replaceFirst, if_neg hx] at hm
      rcases List.mem_cons.mp hm with h | h
      · exact absurd (h ▸ hd) hx
      · exact ih hnd.2 h

/-- In a collection with pairwise-distinct dates containing an entry for
`d`, the number of entries for `d` is exactly one. -/
theorem countP_date_eq_one {l : List MoodEntry} {d : String}
    (hnd : (l.map (·.date)).Nodup) (hm : ∃ m ∈ l, m.date = d) :
    (l.countP fun m => m.date = d) = 1 := by
  induction l with
  | nil => simp at hm
  | cons x rest ih =>
    rw [List.map_cons, List.nodup_cons] at hnd
    by_cases hx : x.date = d
    · rw [List.countP_cons_of_pos _ _ (by simpa using hx)]
      have hz : (rest.countP fun m => m.date = d) = 0 := by
        rw [List.countP_eq_zero]
        intro m hmem
        simp only [decide_eq_true_eq]
        intro hmd
        exact hnd.1 (by rw [hx, ← hmd]; exact List.mem_map_of_mem _ hmem)
      omega
    · rw [List.countP_cons_of_neg _ _ (by simpa using hx)]
      obtain ⟨m, hmem, hmd⟩ := hm
      rcases List.mem_cons.mp hmem with rfl | hmem'
      · exact absurd hmd hx
      · exact ih hnd.2 ⟨m, hmem', hmd⟩

/-- `countP` of a date predicate only depends on the list of dates. -/
theorem countP_date_map (l : List MoodEntry) (d : String) :
    (l.countP fun m => m.date = d) = ((l.map (·.date)).countP fun s => s = d) := by
  rw [List.countP_map]
  rfl

/-- The collection `saveMood` persists, before the final sort. -/
theorem saveMood_pre_sort (now : Int) (store : List MoodEntry)
    (date emoji note : String) (tags? : Option (List String)) :
    List.Perm (saveMood now store date emoji note tags?).2
      (match store.find? fun m => m.date = date with
        | some _ => replaceFirst (saveMood now store date emoji note tags?).1 store
        | none => store ++ [(saveMood now store date emoji note tags?).1]) := by
  unfold saveMood
  cases h : store.find? fun m => m.date = date <;>
    simp only [h] <;> exact List.perm_insertionSort _ _

/-! ## Claim C1 — save semantics -/

/-- **C1.** For every store state (with the store's pairwise-distinct-date
invariant) and every date `d`, emoji `e`, note `n`: `save` without a tags
argument replaces the entry's emoji, trimmed note and timestamp while
carrying over the existing entry's tags, an explicit tags argument
replaces the tags, and a fresh entry defaults to no tags; afterwards the
collection contains exactly one entry for `d` and `get d` returns the
entry just saved. -/
theorem saveMood_correct (now : Int) (store : List MoodEntry)
    (d e n : String) (tags? : Option (List String))
    (hnd : (store.map (·.date)).Nodup) :
    (saveMood now store d e n tags?).1.date = d ∧
    (saveMood now store d e n tags?).1.emoji = e ∧
    (saveMood now store d e n tags?).1.note = jsTrim n ∧
    (saveMood now store d e n tags?).1.timestamp = now ∧
    (saveMood now store d e n tags?).1.tags =
      (match tags? with
       | some t => t
       | none =>
         match getMood store d with
         | some old => old.tags
         | none => []) ∧
    ((getAllMoods (saveMood now store d e n tags?).2).countP fun m => m.date = d) = 1 ∧
    getMood (saveMood now store d e n tags?).2 d = some (saveMood now store d e n tags?).1 := by
  refine ⟨rfl, rfl, rfl, rfl, ?_, ?_, ?_⟩
  · cases tags? <;> rfl
  · -- exactly one entry for d afterwards
    have hperm := saveMood_pre_sort now store d e n tags?
    cases hfind : store.find? fun m => m.date = d with
    | some old =>
      rw [hfind] at hperm
      have hold_mem : old ∈ store := List.mem_of_find?_eq_some hfind
      have hold_date : old.date = d := by
        have := List.find?_some hfind
        simpa using this
      show ((saveMood now store d e n tags?).2.countP fun m => m.date = d) = 1
      rw [hperm.countP_eq, countP_date_map, replaceFirst_map_date, ← countP_date_map]
      exact countP_date_eq_one hnd ⟨old, hold_mem, hold_date⟩
    | none =>
      rw [hfind] at hperm
      have hnone : ∀ m ∈ store, m.date ≠ d := by
        intro m hm
        have := List.find?_eq_none.mp hfind m hm
        simpa using this
      show ((saveMood now store d e n tags?).2.countP fun m => m.date = d) = 1
      rw [hperm.countP_eq, List.countP_append]
      have h0 : (store.countP fun m => m.date = d) = 0 := by
        rw [List.countP_eq_zero]
        intro m hm
        simpa using hnone m hm
      have h1 : (([(saveMood now store d e n tags?).1].countP fun m => m.date = d) = 1) := by
        simp [List.countP_cons]
        rfl
      omega
  · -- get d returns the saved entry
    have hperm := saveMood_pre_sort now store d e n tags?
    have hdate : (saveMood now store d e n tags?).1.date = d := rfl
    cases hfind : store.find? fun m => m.date = d with
    | some old =>
      rw [hfind] at hperm
      have hold_mem : old ∈ store := List.mem_of_find?_eq_some hfind
      have hold_date : old.date = d := by
        have := List.find?_some hfind
        simpa using this
      have hmem : (saveMood now store d e n tags?).1 ∈ (saveMood now store d e n tags?).2 :=
        hperm.symm.subset (replaceFirst_mem_self ⟨old, hold_mem, by rw [hold_date, hdate]⟩)
      refine find?_eq_of_unique hmem (by simp [hdate]) ?_
      intro b hb hpb
      have hb' : b ∈ replaceFirst (saveMood now store d e n tags?).1 store := hperm.subset hb
      have hbd : b.date = (saveMood now store d e n tags?).1.date := by
        rw [hdate]
        simpa using hpb
      exact eq_of_mem_replaceFirst_of_nodup hnd hb' hbd
    | none =>
      rw [hfind] at hperm
      have hnone : ∀ m ∈ store, m.date ≠ d := by
        intro m hm
        have := List.find?_eq_none.mp hfind m hm
        simpa using this
      have hmem : (saveMood now store d e n tags?).1 ∈ (saveMood now store d e n tags?).2 :=
        hperm.symm.subset (List.mem_append_right _ (List.mem_singleton_self _))
      refine find?_eq_of_unique hmem (by simp [hdate]) ?_
      intro b hb hpb
      have hb' : b ∈ store ++ [(saveMood now store d e n tags?).1] := hperm.subset hb
      have hbd : b.date = d := by simpa using hpb
      rcases List.mem_append.mp hb' with h | h
      · exact absurd hbd (hnone b h)
      · exact List.mem_singleton.mp h

/-- Witness for C1: re-saving `2024-01-02` without tags after an earlier
save with tags `["work"]` keeps the tags, updates emoji/note/timestamp,
and leaves a single entry for that date, returned by `get`. -/
theorem saveMood_correct_witness :
    (([(⟨"2024-01-02", "😊", "hi", ["work"], 5⟩ : MoodEntry)].map (·.date)).Nodup) ∧
    (saveMood 6 [(⟨"2024-01-02", "😊", "hi", ["work"], 5⟩ : MoodEntry)]
        "2024-01-02" "😢" "x" none).1.tags = ["work"] :=
  ⟨by decide, by
    have h := saveMood_correct 6
      [(⟨"2024-01-02", "😊", "hi", ["work"], 5⟩ : MoodEntry)]
      "2024-01-02" "😢" "x" none (by decide)
    rw [h.2.2.2.2.1]
    rfl⟩

/-! ## Claim C2 — descending order invariant -/

theorem sortedByDateDesc_saveMood (now : Int) (store : List MoodEntry)
    (d e n : String) (t : Option (List String)) :
    sortedByDateDesc (saveMood now store d e n t).2 := by
  unfold saveMood sortedByDateDesc
  cases store.find? fun m => m.date = d <;>
    exact List.sorted_insertionSort moodDesc _

theorem sortedByDateDesc_deleteMood {store : List MoodEntry} (d : String)
    (h : sortedByDateDesc store) : sortedByDateDesc (deleteMood store d) :=
  List.Pairwise.filter _ h

theorem sortedByDateDesc_importRow (now : Int) (dI eI nI : Int)
    {st : Nat × List MoodEntry} (h : sortedByDateDesc st.2) (line : String) :
    sortedByDateDesc (importRow now dI eI nI st line).2 := by
  unfold importRow
  by_cases h1 : jsTrim line = ""
  · simpa [h1]
  · simp only [if_neg h1]
    by_cases h2 : (jsAt (parseCSVLine (jsTrim line)) dI ≠ "" &&
        jsAt (parseCSVLine (jsTrim line)) eI ≠ "" &&
        isValidDate (jsAt (parseCSVLine (jsTrim line)) dI)) = true
    · simp only [h2, if_true]
      exact sortedByDateDesc_saveMood _ _ _ _ _ _
    · simp only [h2, if_false]
      exact h

theorem sortedByDateDesc_importFold (now : Int) (dI eI nI : Int)
    (lines : List String) :
    ∀ st : Nat × List MoodEntry, sortedByDateDesc st.2 →
      sortedByDateDesc (lines.foldl (importRow now dI eI nI) st).2 := by
  induction lines with
  | nil => intro st h; exact h
  | cons l rest ih =>
    intro st h
    exact ih _ (sortedByDateDesc_importRow now dI eI nI h l)

theorem sortedByDateDesc_applyOp {store : List MoodEntry}
    (h : sortedByDateDesc store) (op : StoreOp) :
    sortedByDateDesc (applyOp store op) := by
  cases op with
  | save now d e n t => exact sortedByDateDesc_saveMood now store d e n t
  | del d => exact sortedByDateDesc_deleteMood d h
  | imp now csv =>
    have hgoal : applyOp store (.imp now csv) =
        (match importFromCSV now store csv with
          | .ok r => r.2
          | .error _ => store) := rfl
    rw [hgoal]
    cases himp : importFromCSV now store csv with
    | error e => exact h
    | ok r =>
      unfold importFromCSV at himp
      dsimp only at himp
      split at himp
      · exact absurd himp (by simp)
      · split at himp
        · exact absurd himp (by simp)
        · injection himp with hr
          rw [← hr]
          exact sortedByDateDesc_importFold now _ _ _ _ (0, store) h

/-- **C2.** Starting from the empty store, every sequence of store
operations (saves, deletes, CSV imports) leaves the persisted collection
— which is also what `getAll` returns — sorted by date descending,
regardless of insertion order. -/
theorem applyOps_sortedByDateDesc (ops : List StoreOp) :
    sortedByDateDesc (getAllMoods (applyOps ops [])) := by
  suffices h : ∀ store, sortedByDateDesc store → sortedByDateDesc (applyOps ops store) from
    h [] (List.sorted_nil)
  induction ops with
  | nil => intro store h; exact h
  | cons op rest ih =>
    intro store h
    exact ih _ (sortedByDateDesc_applyOp h op)

/-! ## Claim C10 — the two current-streak implementations agree -/

/-- **C10.** For every entry collection and every fixed current date, the
exported `getCurrentStreak` of stats.js and the private
`getCurrentStreakDays` helper of features.js return the same value (the
two source functions are verbatim duplicates). -/
theorem getCurrentStreak_eq_getCurrentStreakDays :
    ∀ (today : Int) (moods : List MoodEntry),
      getCurrentStreak today moods = getCurrentStreakDays today moods :=
  fun _ _ => rfl

/-! ## Claim C3 — current streak -/

theorem streakWalk_eq_consecPrefix (l : List MoodEntry) :
    ∀ (e : Int) (acc : Nat), (∀ m ∈ l, (epochDay m.date).isSome) →
      streakWalk (some e) l acc = acc + consecPrefix e (l.map dkey) := by
  induction l with
  | nil => intro e acc _; simp [streakWalk, consecPrefix]
  | cons m rest ih =>
    intro e acc hval
    obtain ⟨c, hc⟩ := Option.isSome_iff_exists.mp (hval m (List.mem_cons_self _ _))
    have hdk : dkey m = c := by simp [dkey, hc]
    by_cases hce : c = e - 1
    · have hw : streakWalk (some e) (m :: rest) acc =
          streakWalk (some (e - 1)) rest (acc + 1) := by
        simp [streakWalk, hc, hce]
      rw [hw, ih (e - 1) (acc + 1) fun x hx => hval x (List.mem_cons_of_mem _ hx)]
      simp [consecPrefix, hdk, hce]
      omega
    · have hw : streakWalk (some e) (m :: rest) acc = acc := by
        simp [streakWalk, hc, hce]
      rw [hw]
      simp [consecPrefix, hdk, hce]

theorem consecPrefix_le_length : ∀ (e : Int) (ks : List Int),
    consecPrefix e ks ≤ ks.length := by
  intro e ks
  induction ks generalizing e with
  | nil => simp [consecPrefix]
  | cons k ks ih =>
    by_cases hk : k = e - 1
    · simp only [consecPrefix, if_pos hk, List.length_cons]
      exact Nat.succ_le_succ (ih (e - 1))
    · simp [consecPrefix, hk]

theorem consecPrefix_mem : ∀ (e : Int) (ks : List Int),
    List.Pairwise (· > ·) ks → (∀ k ∈ ks, k < e) →
    ∀ i : Nat, i < consecPrefix e ks → (e - 1 - i) ∈ ks := by
  intro e ks
  induction ks generalizing e with
  | nil => intro _ _ i hi; simp [consecPrefix] at hi
  | cons k ks ih =>
    intro hpw hlt i hi
    rw [List.pairwise_cons] at hpw
    by_cases hk : k = e - 1
    · simp only [consecPrefix, if_pos hk] at hi
      match i with
      | 0 => simp [hk]
      | j + 1 =>
        have hj : j < consecPrefix (e - 1) ks := by omega
        have hmem := ih (e - 1) hpw.2 (fun x hx => hk ▸ hpw.1 x hx) j hj
        have harith : e - 1 - (j + 1 : Nat) = e - 1 - 1 - (j : Nat) := by
          push_cast
          ring
        rw [harith]
        exact List.mem_cons_of_mem _ hmem
    · simp [consecPrefix, hk] at hi

theorem consecPrefix_gap : ∀ (e : Int) (ks : List Int),
    List.Pairwise (· > ·) ks → (∀ k ∈ ks, k < e) →
    consecPrefix e ks < ks.length → (e - 1 - consecPrefix e ks) ∉ ks := by
  intro e ks
  induction ks generalizing e with
  | nil => intro _ _ h; simp at h
  | cons k ks ih =>
    intro hpw hlt hlen
    rw [List.pairwise_cons] at hpw
    by_cases hk : k = e - 1
    · simp only [consecPrefix, if_pos hk, List.length_cons] at hlen ⊢
      have hlen' : consecPrefix (e - 1) ks < ks.length := by omega
      have hgap := ih (e - 1) hpw.2 (fun x hx => hk ▸ hpw.1 x hx) hlen'
      intro hmem
      have harith : e - 1 - (consecPrefix (e - 1) ks + 1 : Nat) =
          e - 1 - 1 - (consecPrefix (e - 1) ks : Nat) := by
        push_cast
        ring
      rw [harith] at hmem
      rcases List.mem_cons.mp hmem with h | h
      · omega
      · exact hgap h
    · simp only [consecPrefix, if_neg hk]
      intro hmem
      rcases List.mem_cons.mp hmem with h | h
      · exact hk (by omega)
      · have h1 := hpw.1 _ h
        have h2 := hlt k (List.mem_cons_self _ _)
        omega

/-- **C3.** `getCurrentStreak` returns 0 on an empty collection; with the
store's invariants (valid, pairwise-distinct dates) and `L` the most
recent entry's epoch day, it returns 0 whenever `L` is strictly earlier
than yesterday, and otherwise the number of consecutive calendar days
with an entry counted backward from `L`, terminating at the first gap;
the specification's 2024-12-06/07/08 examples give 3 for "today" =
2024-12-08 and 0 for "today" = 2024-12-10. -/
theorem getCurrentStreak_correct (today L : Int) (moods : List MoodEntry)
    (hval : ∀ m ∈ moods, (epochDay m.date).isSome)
    (hnd : (moods.map dkey).Nodup)
    (hL : ∃ m ∈ moods, epochDay m.date = some L)
    (hLmax : ∀ m ∈ moods, dkey m ≤ L) :
    ((L < today - 1 → getCurrentStreak today moods = 0) ∧
     (today - 1 ≤ L →
       1 ≤ getCurrentStreak today moods ∧
       getCurrentStreak today moods ≤ moods.length ∧
       (∀ i : Nat, i < getCurrentStreak today moods →
         ∃ m ∈ moods, epochDay m.date = some (L - i)) ∧
       (getCurrentStreak today moods < moods.length →
         ∀ m ∈ moods, epochDay m.date ≠
           some (L - (getCurrentStreak today moods : Int))))) ∧
    getCurrentStreak today [] = 0 ∧
    getCurrentStreak (daysFromCivil 2024 12 8) streakExample = 3 ∧
    getCurrentStreak (daysFromCivil 2024 12 10) streakExample = 0 := by
  refine ⟨?_, rfl, by decide, by decide⟩
  obtain ⟨mL, hmL, hmLe⟩ := hL
  have hperm0 := sortDesc_perm moods
  have hsorted0 := List.sorted_insertionSort moodDesc moods
  cases hsd : moods.insertionSort moodDesc with
  | nil =>
    rw [hsd] at hperm0
    exact absurd (hperm0.symm.eq_nil) (by intro h; subst h; simp at hmL)
  | cons latest rest =>
    rw [hsd] at hperm0 hsorted0
    have hmemiff : ∀ a, a ∈ latest :: rest ↔ a ∈ moods := fun a => hperm0.mem_iff
    have hvalall : ∀ m ∈ latest :: rest, (epochDay m.date).isSome :=
      fun m hm => hval m ((hmemiff m).mp hm)
    obtain ⟨c, hc⟩ := Option.isSome_iff_exists.mp (hvalall latest (List.mem_cons_self _ _))
    have hdkl : dkey latest = c := by simp [dkey, hc]
    have hrel := List.rel_of_sorted_cons hsorted0
    have hcL : c = L := by
      have h1 : dkey latest ≤ L := hLmax latest ((hmemiff latest).mp (List.mem_cons_self _ _))
      have h2 : L ≤ dkey latest := by
        have hmL' : mL ∈ latest :: rest := (hmemiff mL).mpr hmL
        have hdkmL : dkey mL = L := by simp [dkey, hmLe]
        rcases List.mem_cons.mp hmL' with rfl | hmem
        · omega
        · have := hrel mL hmem
          unfold moodDesc at this
          omega
      omega
    subst hcL
    have hstreak : ∀ t : Int, getCurrentStreak t moods =
        if c < t - 1 then 0 else streakWalk (some c) rest 1 := by
      intro t
      unfold getCurrentStreak
      rw [hsd]
      dsimp only
      rw [hc]
    constructor
    · intro hlt
      rw [hstreak, if_pos hlt]
    · intro hge
      have hnotlt : ¬(c < today - 1) := by omega
      rw [hstreak, if_neg hnotlt]
      -- keys of rest are strictly descending and all below c
      have hnd' : ((latest :: rest).map dkey).Nodup := ((hperm0.map dkey).nodup_iff).mpr hnd
      have hpwdesc : List.Pairwise (fun a b => dkey b ≤ dkey a) (latest :: rest) := hsorted0
      have hpwne : List.Pairwise (fun a b => dkey a ≠ dkey b) (latest :: rest) :=
        List.pairwise_map.mp hnd'
      have hpwgt : List.Pairwise (fun a b => dkey a > dkey b) (latest :: rest) := by
        have := hpwdesc.and hpwne
        exact this.imp fun h => lt_of_le_of_ne h.1 h.2.symm
      have hpwgt' : List.Pairwise (· > ·) ((latest :: rest).map dkey) :=
        List.pairwise_map.mpr hpwgt
      rw [List.map_cons, List.pairwise_cons] at hpwgt'
      have hwalk := streakWalk_eq_consecPrefix rest c 1
        (fun m hm => hvalall m (List.mem_cons_of_mem _ hm))
      rw [hwalk]
      set w := consecPrefix c (rest.map dkey) with hw
      have hklt : ∀ k ∈ rest.map dkey, k < c := by
        intro k hk
        have := hpwgt'.1 k hk
        omega
      have hlen : moods.length = rest.length + 1 := by
        rw [← hperm0.length_eq]
        simp
      refine ⟨by omega, ?_, ?_, ?_⟩
      · have := consecPrefix_le_length c (rest.map dkey)
        rw [List.length_map] at this
        omega
      · intro i hi
        match i with
        | 0 =>
          refine ⟨latest, (hmemiff latest).mp (List.mem_cons_self _ _), ?_⟩
          rw [hc]
          norm_num
        | j + 1 =>
          have hj : j < w := by omega
          have hmem := consecPrefix_mem c (rest.map dkey) hpwgt'.2 hklt j hj
          obtain ⟨m, hmrest, hmk⟩ := List.mem_map.mp hmem
          refine ⟨m, (hmemiff m).mp (List.mem_cons_of_mem _ hmrest), ?_⟩
          obtain ⟨cm, hcm⟩ := Option.isSome_iff_exists.mp
            (hvalall m (List.mem_cons_of_mem _ hmrest))
          have : dkey m = cm := by simp [dkey, hcm]
          rw [hcm]
          congr 1
          push_cast
          omega
      · intro hltlen m hmmood
        have hwlt : w < rest.length := by omega
        have hgap := consecPrefix_gap c (rest.map dkey) hpwgt'.2 hklt
          (by rw [List.length_map]; omega)
        rcases List.mem_cons.mp ((hmemiff m).mpr hmmood) with rfl | hmem
        · rw [hc]
          intro heq
          have := Option.some.inj heq
          omega
        · obtain ⟨cm, hcm⟩ := Option.isSome_iff_exists.mp
            (hvalall m (List.mem_cons_of_mem _ hmem))
          have hdkm : dkey m = cm := by simp [dkey, hcm]
          rw [hcm]
          intro heq
          have hceq := Option.some.inj heq
          apply hgap
          have : dkey m = c - 1 - (w : Int) := by omega
          rw [← this]
          exact List.mem_map_of_mem _ hmem

/-- Witness for C3: the example collection satisfies the hypotheses with
`L` the epoch day of 2024-12-08, and the active-streak branch applies. -/
theorem getCurrentStreak_correct_witness :
    1 ≤ getCurrentStreak (daysFromCivil 2024 12 8) streakExample :=
  ((getCurrentStreak_correct (daysFromCivil 2024 12 8) (daysFromCivil 2024 12 8)
      streakExample (by decide) (by decide)
      ⟨⟨"2024-12-08", "😊", "", [], 0⟩, by decide, by decide⟩
      (by decide)).1.2 (by decide)).1

/-! ## Claim C4 — longest streak -/

/-- One-step equation for `longWalk` when both dates are valid. -/
theorem longWalk_cons {m prev : MoodEntry} (rest : List MoodEntry) (cur mx : Nat)
    {c p : Int} (hc : epochDay m.date = some c) (hp : epochDay prev.date = some p) :
    longWalk prev (m :: rest) cur mx =
      if c - p = 1 then longWalk m rest (cur + 1) (max mx (cur + 1))
      else if 1 < c - p then longWalk m rest 1 mx
      else longWalk m rest cur mx := by
  conv_lhs => unfold longWalk
  rw [hc, hp]

/-- Invariant-carrying specification of `getLongestStreak`'s forward scan.
`P` is the multiset of epoch days already processed, `p` the previous
element's day, `cur` the length of the consecutive run ending at `p`
within `P`, and `mx` the longest run seen so far. -/
theorem longWalk_spec (l : List MoodEntry) :
    ∀ (prev : MoodEntry) (p : Int) (P : List Int) (cur mx : Nat),
      (∀ m ∈ l, (epochDay m.date).isSome) →
      epochDay prev.date = some p →
      List.Pairwise moodAsc (prev :: l) →
      (∀ k ∈ P, k ≤ p) → p ∈ P →
      1 ≤ cur → cur ≤ mx →
      (∀ i : Nat, i < cur → (p - i) ∈ P) →
      (p - cur) ∉ P →
      (∀ (d : Int) (len : Nat), (∀ i : Nat, i < len → (d + i) ∈ P) → len ≤ mx) →
      (∃ d : Int, ∀ i : Nat, i < mx → (d + i) ∈ P) →
      (mx ≤ longWalk prev l cur mx ∧
       (∃ d : Int, ∀ i : Nat, i < longWalk prev l cur mx →
          (d + i) ∈ P ++ l.map dkey) ∧
       (∀ (d : Int) (len : Nat), (∀ i : Nat, i < len → (d + i) ∈ P ++ l.map dkey) →
          len ≤ longWalk prev l cur mx)) := by
  induction l with
  | nil =>
    intro prev p P cur mx _ _ _ _ _ _ hcm _ _ hbound hach
    refine ⟨le_refl _, ?_, ?_⟩
    · obtain ⟨d, hd⟩ := hach
      exact ⟨d, fun i hi => by simpa using hd i hi⟩
    · intro d len hrun
      exact hbound d len fun i hi => by simpa using hrun i hi
  | cons m rest ih =>
    intro prev p P cur mx hval hp hpw hPle hpP hcur1 hcm hI1 hI2 hI3 hI4
    obtain ⟨c, hc⟩ := Option.isSome_iff_exists.mp (hval m (List.mem_cons_self _ _))
    have hdkm : dkey m = c := by simp [dkey, hc]
    rw [List.pairwise_cons] at hpw
    have hpc : p ≤ c := by
      have := hpw.1 m (List.mem_cons_self _ _)
      unfold moodAsc at this
      have hdkp : dkey prev = p := by simp [dkey, hp]
      omega
    have hval' : ∀ x ∈ rest, (epochDay x.date).isSome :=
      fun x hx => hval x (List.mem_cons_of_mem _ hx)
    have hmemtrans : ∀ x : Int, x ∈ (c :: P) ++ rest.map dkey ↔
        x ∈ P ++ (m :: rest).map dkey := by
      intro x
      simp only [List.mem_append, List.mem_cons, List.map_cons, hdkm]
      tauto
    by_cases h1 : c - p = 1
    · -- consecutive day: extend the run
      rw [longWalk_cons rest cur mx hc hp, if_pos h1]
      have hres := ih m c (c :: P) (cur + 1) (max mx (cur + 1)) hval' hc hpw.2
        (by
          intro k hk
          rcases List.mem_cons.mp hk with rfl | hk'
          · exact le_refl _
          · have := hPle k hk'
            omega)
        (List.mem_cons_self _ _)
        (by omega) (by omega)
        (by
          intro i hi
          match i with
          | 0 => simp
          | j + 1 =>
            have : (p - j) ∈ P := hI1 j (by omega)
            refine List.mem_cons_of_mem _ ?_
            have harith : c - ((j : Int) + 1) = p - j := by omega
            rw [show ((j + 1 : Nat) : Int) = (j : Int) + 1 by push_cast; ring, harith]
            exact this)
        (by
          intro hmem
          rcases List.mem_cons.mp hmem with heq | hmem'
          · omega
          · have : c - ((cur : Int) + 1) = p - cur := by omega
            rw [show ((cur + 1 : Nat) : Int) = (cur : Int) + 1 by push_cast; ring, this] at hmem'
            exact hI2 hmem')
        (by
          -- every run within the processed keys is ≤ max mx (cur+1)
          intro d len hrun
          by_cases hcl : ∃ i : Nat, i < len ∧ d + i = c
          · -- the run ends at the new top key c
            obtain ⟨i, hi, hieq⟩ := hcl
            have hlast : d + ((len : Int) - 1) ≤ c := by
              have hmem := hrun (len - 1) (by omega)
              rcases List.mem_cons.mp hmem with heq | hmem'
              · rw [show ((len - 1 : Nat) : Int) = (len : Int) - 1 by omega] at heq
                omega
              · have := hPle _ hmem'
                rw [show ((len - 1 : Nat) : Int) = (len : Int) - 1 by omega] at this
                omega
            have hd : d = c - (len : Int) + 1 := by omega
            by_contra hgt
            push_neg at hgt
            have hlen2 : cur + 2 ≤ len := by omega
            have hmem := hrun (len - 1 - (cur + 1)) (by omega)
            have hval2 : d + ((len - 1 - (cur + 1) : Nat) : Int) = p - cur := by
              rw [show ((len - 1 - (cur + 1) : Nat) : Int) =
                (len : Int) - 1 - ((cur : Int) + 1) by omega]
              omega
            rw [hval2] at hmem
            rcases List.mem_cons.mp hmem with heq | hmem'
            · omega
            · exact hI2 hmem'
          · push_neg at hcl
            have hrun' : ∀ i : Nat, i < len → (d + i) ∈ P := by
              intro i hi
              have hmem := hrun i hi
              rcases List.mem_cons.mp hmem with heq | hmem'
              · exact absurd heq (hcl i hi)
              · exact hmem'
            have := hI3 d len hrun'
            omega)
        (by
          by_cases hcm' : cur + 1 ≤ mx
          · obtain ⟨d, hd⟩ := hI4
            refine ⟨d, fun i hi => List.mem_cons_of_mem _ (hd i ?_)⟩
            omega
          · refine ⟨c - (cur : Int), fun i hi => ?_⟩
            have hi' : i ≤ cur := by omega
            by_cases hie : i = cur
            · subst hie
              have : c - (i : Int) + i = c := by ring
              rw [this]
              exact List.mem_cons_self _ _
            · refine List.mem_cons_of_mem _ ?_
              have : c - (cur : Int) + i = p - (cur - 1 - i : Nat) := by
                have : ((cur - 1 - i : Nat) : Int) = (cur : Int) - 1 - i := by omega
                omega
              rw [this]
              exact hI1 _ (by omega))
      refine ⟨le_trans (le_max_left _ _) hres.1, ?_, ?_⟩
      · obtain ⟨d, hd⟩ := hres.2.1
        exact ⟨d, fun i hi => (hmemtrans _).mp (hd i hi)⟩
      · intro d len hrun
        exact hres.2.2 d len fun i hi => (hmemtrans _).mpr (hrun i hi)
    · by_cases h2 : 1 < c - p
      · -- gap: reset the run to length 1
        rw [longWalk_cons rest cur mx hc hp, if_neg h1, if_pos h2]
        have hres := ih m c (c :: P) 1 mx hval' hc hpw.2
          (by
            intro k hk
            rcases List.mem_cons.mp hk with rfl | hk'
            · exact le_refl _
            · have := hPle k hk'
              omega)
          (List.mem_cons_self _ _)
          (le_refl _) (by omega)
          (by
            intro i hi
            have : i = 0 := by omega
            subst this
            simp)
          (by
            intro hmem
            rcases List.mem_cons.mp hmem with heq | hmem'
            · omega
            · have := hPle _ hmem'
              omega)
          (by
            intro d len hrun
            by_cases hcl : ∃ i : Nat, i < len ∧ d + i = c
            · obtain ⟨i, hi, hieq⟩ := hcl
              have hlast : d + ((len : Int) - 1) ≤ c := by
                have hmem := hrun (len - 1) (by omega)
                rcases List.mem_cons.mp hmem with heq | hmem'
                · rw [show ((len - 1 : Nat) : Int) = (len : Int) - 1 by omega] at heq
                  omega
                · have := hPle _ hmem'
                  rw [show ((len - 1 : Nat) : Int) = (len : Int) - 1 by omega] at this
                  omega
              by_contra hgt
              push_neg at hgt
              have hlen2 : 2 ≤ len := by omega
              have hmem := hrun (len - 2) (by omega)
              have hval2 : d + ((len - 2 : Nat) : Int) = c - 1 := by
                rw [show ((len - 2 : Nat) : Int) = (len : Int) - 2 by omega]
                omega
              rw [hval2] at hmem
              rcases List.mem_cons.mp hmem with heq | hmem'
              · omega
              · have := hPle _ hmem'
                omega
            · push_neg at hcl
              have hrun' : ∀ i : Nat, i < len → (d + i) ∈ P := by
                intro i hi
                have hmem := hrun i hi
                rcases List.mem_cons.mp hmem with heq | hmem'
                · exact absurd heq (hcl i hi)
                · exact hmem'
              exact hI3 d len hrun')
          (by
            obtain ⟨d, hd⟩ := hI4
            exact ⟨d, fun i hi => List.mem_cons_of_mem _ (hd i hi)⟩)
        refine ⟨hres.1, ?_, ?_⟩
        · obtain ⟨d, hd⟩ := hres.2.1
          exact ⟨d, fun i hi => (hmemtrans _).mp (hd i hi)⟩
        · intro d len hrun
          exact hres.2.2 d len fun i hi => (hmemtrans _).mpr (hrun i hi)
      · -- same day (duplicate date entry): state unchanged
        have hceq : c = p := by omega
        subst hceq
        rw [longWalk_cons rest cur mx hc hp, if_neg h1, if_neg h2]
        have hres := ih m c P cur mx hval' hc hpw.2 hPle hpP hcur1 hcm hI1 hI2 hI3 hI4
        refine ⟨hres.1, ?_, ?_⟩
        · obtain ⟨d, hd⟩ := hres.2.1
          refine ⟨d, fun i hi => ?_⟩
          have hmem := hd i hi
          rw [List.map_cons, hdkm]
          rcases List.mem_append.mp hmem with h | h
          · exact List.mem_append_left _ h
          · exact List.mem_append_right _ (List.mem_cons_of_mem _ h)
        · intro d len hrun
          refine hres.2.2 d len fun i hi => ?_
          have hmem := hrun i hi
          rw [List.map_cons, hdkm] at hmem
          rcases List.mem_append.mp hmem with h | h
          · exact List.mem_append_left _ h
          · rcases List.mem_cons.mp h with heq | h'
            · exact List.mem_append_left _ (heq ▸ hpP)
            · exact List.mem_append_right _ h'

/-- **C4.** `getLongestStreak` returns 0 exactly on an empty collection
and at least 1 otherwise; on valid dates it returns the maximum length of
a run of consecutive calendar days each having an entry — so gaps reset
the count and duplicate dates neither extend nor reset it — and the
specification's 2024-01-01/02/05/06/07 example yields 3. -/
theorem getLongestStreak_correct (moods : List MoodEntry)
    (hval : ∀ m ∈ moods, (epochDay m.date).isSome) :
    (moods = [] → getLongestStreak moods = 0) ∧
    (moods ≠ [] →
      1 ≤ getLongestStreak moods ∧
      (∃ d : Int, ∀ i : Nat, i < getLongestStreak moods →
         ∃ m ∈ moods, epochDay m.date = some (d + i)) ∧
      (∀ (d : Int) (len : Nat),
         (∀ i : Nat, i < len → ∃ m ∈ moods, epochDay m.date = some (d + i)) →
         len ≤ getLongestStreak moods)) ∧
    getLongestStreak longestExample = 3 := by
  refine ⟨?_, ?_, by decide⟩
  · intro h
    subst h
    rfl
  · intro hne
    have hperm0 := sortAsc_perm moods
    have hsorted0 := List.sorted_insertionSort moodAsc moods
    cases hsd : moods.insertionSort moodAsc with
    | nil =>
      rw [hsd] at hperm0
      exact absurd hperm0.symm.eq_nil hne
    | cons first others =>
      rw [hsd] at hperm0 hsorted0
      have hmemiff : ∀ a, a ∈ first :: others ↔ a ∈ moods := fun a => hperm0.mem_iff
      obtain ⟨p, hp⟩ := Option.isSome_iff_exists.mp
        (hval first ((hmemiff first).mp (List.mem_cons_self _ _)))
      have hstreak : getLongestStreak moods = longWalk first others 1 1 := by
        unfold getLongestStreak
        rw [hsd]
      have hkey : ∀ x : Int, x ∈ [p] ++ others.map dkey ↔
          ∃ m ∈ moods, epochDay m.date = some x := by
        intro x
        constructor
        · intro hx
          rcases List.mem_append.mp hx with h | h
          · rcases List.mem_singleton.mp h with rfl
            exact ⟨first, (hmemiff first).mp (List.mem_cons_self _ _), hp⟩
          · obtain ⟨m, hmem, hdk⟩ := List.mem_map.mp h
            obtain ⟨cm, hcm⟩ := Option.isSome_iff_exists.mp
              (hval m ((hmemiff m).mp (List.mem_cons_of_mem _ hmem)))
            refine ⟨m, (hmemiff m).mp (List.mem_cons_of_mem _ hmem), ?_⟩
            have : dkey m = cm := by simp [dkey, hcm]
            rw [hcm]
            congr 1
            omega
        · rintro ⟨m, hmem, hme⟩
          have hdk : dkey m = x := by simp [dkey, hme]
          rcases List.mem_cons.mp ((hmemiff m).mpr hmem) with rfl | h
          · have : p = x := by
              rw [hp] at hme
              exact Option.some.inj hme
            exact List.mem_append_left _ (this ▸ List.mem_singleton_self _)
          · exact List.mem_append_right _ (hdk ▸ List.mem_map_of_mem _ h)
      have hres := longWalk_spec others first p [p] 1 1
        (fun m hm => hval m ((hmemiff m).mp (List.mem_cons_of_mem _ hm)))
        hp hsorted0
        (by
          intro k hk
          rcases List.mem_singleton.mp hk with rfl
          exact le_refl _)
        (List.mem_singleton_self p)
        (le_refl 1) (le_refl 1)
        (by
          intro i hi
          have : i = 0 := by omega
          subst this
          simp)
        (by
          intro hmem
          rcases List.mem_singleton.mp hmem with h
          omega)
        (by
          intro d len hrun
          by_contra hgt
          push_neg at hgt
          have h0 := List.mem_singleton.mp (hrun 0 (by omega))
          have h1 := List.mem_singleton.mp (hrun 1 (by omega))
          push_cast at h0 h1
          omega)
        ⟨p, by
          intro i hi
          have : i = 0 := by omega
          subst this
          simp⟩
      rw [hstreak]
      refine ⟨hres.1, ?_, ?_⟩
      · obtain ⟨d, hd⟩ := hres.2.1
        exact ⟨d, fun i hi => (hkey _).mp (hd i hi)⟩
      · intro d len hrun
        exact hres.2.2 d len fun i hi => (hkey _).mpr (hrun i hi)

/-- Witness for C4: the example collection has valid dates and is
nonempty, so the streak is at least 1 (indeed 3). -/
theorem getLongestStreak_correct_witness :
    1 ≤ getLongestStreak longestExample :=
  ((getLongestStreak_correct longestExample (by decide)).2.1 (by decide)).1

/-! ## Claim C5 — most common mood of a month -/

theorem bump_of_not_mem : ∀ (l : List (String × Nat)) (e : String),
    (∀ kc ∈ l, kc.1 ≠ e) → bump l e = l ++ [(e, 1)] := by
  intro l e
  induction l with
  | nil => intro _; rfl
  | cons kc rest ih =>
    intro h
    obtain ⟨k, c⟩ := kc
    have hne : k ≠ e := h (k, c) (List.mem_cons_self _ _)
    simp only [bump, if_neg hne]
    rw [ih fun x hx => h x (List.mem_cons_of_mem _ hx)]
    rfl

theorem bump_map_formula : ∀ (ks : List String) (f : String → Nat) (e : String),
    e ∈ ks → ks.Nodup →
    bump (ks.map fun k => (k, f k)) e =
      ks.map fun k => (k, f k + if k = e then 1 else 0) := by
  intro ks f e
  induction ks with
  | nil => intro h _; simp at h
  | cons k rest ih =>
    intro hmem hnd
    rw [List.nodup_cons] at hnd
    by_cases hk : k = e
    · subst hk
      simp only [List.map_cons, bump, if_true]
      refine congrArg (List.cons _) ?_
      refine (List.map_congr_left ?_).symm
      intro x hx
      have hxk : ¬ x = k := fun h => hnd.1 (h ▸ hx)
      simp [hxk]
    · simp only [List.map_cons, bump, if_neg hk]
      rcases List.mem_cons.mp hmem with h | h
      · exact absurd h.symm hk
      · rw [ih h hnd.2]
        simp [hk]

theorem mem_firstEncounterOrder : ∀ (es : List String) (k : String),
    k ∈ firstEncounterOrder es ↔ k ∈ es := by
  intro es k
  induction es with
  | nil => simp [firstEncounterOrder]
  | cons e rest ih =>
    simp only [firstEncounterOrder, List.mem_cons, List.mem_filter,
      decide_eq_true_eq]
    constructor
    · rintro (rfl | ⟨h1, _⟩)
      · exact Or.inl rfl
      · exact Or.inr (ih.mp h1)
    · rintro (rfl | h)
      · exact Or.inl rfl
      · by_cases hk : k = e
        · exact Or.inl hk
        · exact Or.inr ⟨ih.mpr h, hk⟩

theorem nodup_firstEncounterOrder : ∀ es : List String,
    (firstEncounterOrder es).Nodup := by
  intro es
  induction es with
  | nil => simp [firstEncounterOrder]
  | cons e rest ih =>
    simp only [firstEncounterOrder]
    rw [List.nodup_cons]
    refine ⟨?_, ih.filter _⟩
    intro hmem
    have := (List.mem_filter.mp hmem).2
    simp at this

theorem firstEncounterOrder_append_single : ∀ (ps : List String) (e : String),
    firstEncounterOrder (ps ++ [e]) =
      if e ∈ ps then firstEncounterOrder ps else firstEncounterOrder ps ++ [e] := by
  intro ps e
  induction ps with
  | nil => simp [firstEncounterOrder]
  | cons p ps' ih =>
    have hfe : ∀ (q : String) (l : List String),
        firstEncounterOrder (q :: l) = q :: (firstEncounterOrder l).filter (· ≠ q) :=
      fun _ _ => rfl
    simp only [show (p :: ps') ++ [e] = p :: (ps' ++ [e]) from rfl, hfe, ih]
    by_cases hmem : e ∈ ps'
    · rw [if_pos hmem, if_pos (List.mem_cons_of_mem _ hmem)]
    · rw [if_neg hmem]
      by_cases hpe : e = p
      · subst hpe
        rw [if_pos (List.mem_cons_self _ _), List.filter_append]
        simp
      · have hnotc : ¬ e ∈ p :: ps' := by
          simp [hpe, hmem]
        rw [if_neg hnotc, List.filter_append]
        simp only [List.filter_cons, List.filter_nil]
        rw [if_pos (by simpa using hpe)]
        rfl

theorem cnt_append (k : String) (l1 l2 : List String) :
    cnt k (l1 ++ l2) = cnt k l1 + cnt k l2 := by
  simp [cnt, List.countP_append]

theorem cnt_singleton (k e : String) : cnt k [e] = if k = e then 1 else 0 := by
  by_cases h : k = e
  · subst h
    simp [cnt, List.countP_cons]
  · rw [if_neg h, cnt, List.countP_eq_zero]
    intro x hx
    rcases List.mem_singleton.mp hx with rfl
    simp only [decide_eq_true_eq]
    exact fun hek => h hek.symm

theorem cnt_eq_zero_of_not_mem {k : String} {l : List String} (h : k ∉ l) :
    cnt k l = 0 := by
  rw [cnt, List.countP_eq_zero]
  intro x hx
  simp only [decide_eq_true_eq]
  intro hxk
  exact h (hxk ▸ hx)

theorem cnt_pos_of_mem {k : String} {l : List String} (h : k ∈ l) :
    1 ≤ cnt k l := by
  rw [cnt]
  have : 0 < l.countP fun x => x = k := by
    rw [List.countP_pos_iff]
    exact ⟨k, h, by simp⟩
  omega

theorem tally_formula_aux : ∀ (es ps : List String),
    List.foldl bump ((firstEncounterOrder ps).map fun k => (k, cnt k ps)) es =
      (firstEncounterOrder (ps ++ es)).map fun k => (k, cnt k (ps ++ es)) := by
  intro es
  induction es with
  | nil => intro ps; simp
  | cons e es' ih =>
    intro ps
    rw [List.foldl_cons]
    have hstep : bump ((firstEncounterOrder ps).map fun k => (k, cnt k ps)) e =
        (firstEncounterOrder (ps ++ [e])).map fun k => (k, cnt k (ps ++ [e])) := by
      by_cases hmem : e ∈ ps
      · have hfe : e ∈ firstEncounterOrder ps := (mem_firstEncounterOrder ps e).mpr hmem
        rw [bump_map_formula _ _ _ hfe (nodup_firstEncounterOrder ps),
          firstEncounterOrder_append_single, if_pos hmem]
        refine List.map_congr_left ?_
        intro k _
        rw [cnt_append, cnt_singleton]
      · have hfe : e ∉ firstEncounterOrder ps := fun h =>
          hmem ((mem_firstEncounterOrder ps e).mp h)
        rw [bump_of_not_mem _ _ (by
            rintro kc hkc
            obtain ⟨k, hk, rfl⟩ := List.mem_map.mp hkc
            intro hke
            exact hfe (hke ▸ hk)),
          firstEncounterOrder_append_single, if_neg hmem, List.map_append]
        congr 1
        · refine List.map_congr_left ?_
          intro k hk
          have hke : k ≠ e := fun h =>
            hmem (h ▸ (mem_firstEncounterOrder ps k).mp hk)
          rw [cnt_append, cnt_singleton, if_neg hke]
          simp
        · simp only [List.map_cons, List.map_nil]
          rw [cnt_append, cnt_eq_zero_of_not_mem hmem, cnt_singleton, if_pos rfl]
    rw [hstep, ih (ps ++ [e]), List.append_assoc]
    rfl

theorem tally_eq (es : List String) :
    tally es = (firstEncounterOrder es).map fun k => (k, cnt k es) := by
  have h := tally_formula_aux es []
  simpa [tally, firstEncounterOrder] using h

theorem pickFirstMax_spec : ∀ (t : List (String × Nat)) (best : Option (String × Nat))
    (c0 : Nat), (match best with | some kc => kc.2 | none => 0) = c0 →
    pickFirstMax t best =
      if maxNat (t.map (·.2)) ≤ c0 then best
      else t.find? fun kc => kc.2 = maxNat (t.map (·.2)) := by
  intro t
  induction t with
  | nil =>
    intro best c0 _
    simp [pickFirstMax, maxNat]
  | cons kc rest ih =>
    intro best c0 hc0
    obtain ⟨k, c⟩ := kc
    have hunfold : pickFirstMax ((k, c) :: rest) best =
        if c0 < c then pickFirstMax rest (some (k, c)) else pickFirstMax rest best := by
      simp only [pickFirstMax, hc0]
    have hM : maxNat (((k, c) :: rest).map (·.2)) =
        max c (maxNat (rest.map (·.2))) := rfl
    rw [hunfold, hM]
    by_cases hlt : c0 < c
    · rw [if_pos hlt, ih (some (k, c)) c rfl]
      by_cases hle : maxNat (rest.map (·.2)) ≤ c
      · rw [if_pos hle, if_neg (by omega), max_eq_left hle]
        have hfind : (((k, c) :: rest).find? fun kc => kc.2 = c) = some (k, c) := by
          rw [List.find?_cons_of_pos _ (by simp)]
        rw [hfind]
      · push_neg at hle
        rw [if_neg (by omega), if_neg (by omega), max_eq_right (le_of_lt hle)]
        rw [List.find?_cons_of_neg _ (by simp; omega)]
    · rw [if_neg hlt, ih best c0 hc0]
      push_neg at hlt
      by_cases hle : maxNat (rest.map (·.2)) ≤ c0
      · rw [if_pos hle, if_pos (by omega)]
      · push_neg at hle
        rw [if_neg (by omega), if_neg (by omega),
          max_eq_right (by omega), List.find?_cons_of_neg _ (by simp; omega)]

theorem le_maxNat_of_mem : ∀ {l : List Nat} {x : Nat}, x ∈ l → x ≤ maxNat l := by
  intro l
  induction l with
  | nil => intro x h; simp at h
  | cons a rest ih =>
    intro x h
    rcases List.mem_cons.mp h with rfl | h
    · simp [maxNat]
    · have := ih h
      simp only [maxNat]
      omega

theorem maxNat_mem : ∀ {l : List Nat}, l ≠ [] → maxNat l ∈ l := by
  intro l
  induction l with
  | nil => intro h; exact absurd rfl h
  | cons a rest ih =>
    intro _
    cases rest with
    | nil => simp [maxNat]
    | cons b rest' =>
      by_cases hle : maxNat (b :: rest') ≤ a
      · have hm : maxNat (a :: b :: rest') = a := by
          show max a (maxNat (b :: rest')) = a
          exact max_eq_left hle
        rw [hm]
        exact List.mem_cons_self _ _
      · push_neg at hle
        have hm : maxNat (a :: b :: rest') = maxNat (b :: rest') := by
          show max a (maxNat (b :: rest')) = maxNat (b :: rest')
          exact max_eq_right (le_of_lt hle)
        rw [hm]
        exact List.mem_cons_of_mem _ (ih (by simp))

theorem maxNat_le_of_subset : ∀ {l1 l2 : List Nat}, (∀ x ∈ l1, x ∈ l2) →
    maxNat l1 ≤ maxNat l2 := by
  intro l1 l2 hsub
  match hl : l1 with
  | [] => simp [maxNat]
  | a :: rest =>
    have : maxNat (a :: rest) ∈ a :: rest := maxNat_mem (by simp)
    exact le_maxNat_of_mem (hsub _ this)

theorem find?_pair_of_find? : ∀ (ks : List String) (g : String → Nat) (M : Nat) (e : String),
    (ks.find? fun k => g k = M) = some e →
    ((ks.map fun k => (k, g k)).find? fun kc => kc.2 = M) = some (e, g e) := by
  intro ks g M e
  induction ks with
  | nil => intro h; simp at h
  | cons k rest ih =>
    intro h
    by_cases hk : g k = M
    · rw [List.find?_cons_of_pos _ (by simpa using hk)] at h
      obtain rfl := Option.some.inj h
      rw [List.map_cons, List.find?_cons_of_pos _ (by simpa using hk)]
    · rw [List.find?_cons_of_neg _ (by simpa using hk)] at h
      rw [List.map_cons, List.find?_cons_of_neg _ (by simpa using hk)]
      exact ih h

/-- **C5.** For a month with no entries `getMostCommonMood` returns
`none`; for a month with entries it returns the emoji with the highest
occurrence count among that month's entries, and among equally-frequent
emojis the one first encountered in the month's entry sequence (the
`find?` over `firstEncounterOrder` expresses exactly that tie-break). -/
theorem getMostCommonMood_correct (store : List MoodEntry) (year month0 : Nat) :
    (getMoodsForMonth store year month0 = [] →
      getMostCommonMood store year month0 = none) ∧
    (getMoodsForMonth store year month0 ≠ [] →
      ∃ e, getMostCommonMood store year month0 = some e ∧
        e ∈ (getMoodsForMonth store year month0).map (·.emoji) ∧
        cnt e ((getMoodsForMonth store year month0).map (·.emoji)) =
          maxNat (((getMoodsForMonth store year month0).map (·.emoji)).map
            fun k => cnt k ((getMoodsForMonth store year month0).map (·.emoji))) ∧
        ((firstEncounterOrder ((getMoodsForMonth store year month0).map (·.emoji))).find?
            fun k => cnt k ((getMoodsForMonth store year month0).map (·.emoji)) =
              maxNat (((getMoodsForMonth store year month0).map (·.emoji)).map
                fun k => cnt k ((getMoodsForMonth store year month0).map (·.emoji)))) =
          some e) := by
  constructor
  · intro h
    unfold getMostCommonMood
    rw [h]
    rfl
  · intro hne
    have hesne : (getMoodsForMonth store year month0).map (·.emoji) ≠ [] := by
      simpa using hne
    obtain ⟨e0, he0⟩ := List.exists_mem_of_ne_nil _ hesne
    have hM1 : 1 ≤ maxNat (((getMoodsForMonth store year month0).map (·.emoji)).map
        fun k => cnt k ((getMoodsForMonth store year month0).map (·.emoji))) :=
      le_trans (cnt_pos_of_mem he0)
        (le_maxNat_of_mem (List.mem_map_of_mem _ he0))
    have hsub1 : ∀ x ∈ (firstEncounterOrder ((getMoodsForMonth store year month0).map
          (·.emoji))).map (fun k => cnt k ((getMoodsForMonth store year month0).map (·.emoji))),
        x ∈ ((getMoodsForMonth store year month0).map (·.emoji)).map
          fun k => cnt k ((getMoodsForMonth store year month0).map (·.emoji)) := by
      intro x hx
      obtain ⟨k, hk, rfl⟩ := List.mem_map.mp hx
      exact List.mem_map_of_mem _ ((mem_firstEncounterOrder _ k).mp hk)
    have hsub2 : ∀ x ∈ ((getMoodsForMonth store year month0).map (·.emoji)).map
          (fun k => cnt k ((getMoodsForMonth store year month0).map (·.emoji))),
        x ∈ (firstEncounterOrder ((getMoodsForMonth store year month0).map (·.emoji))).map
          fun k => cnt k ((getMoodsForMonth store year month0).map (·.emoji)) := by
      intro x hx
      obtain ⟨k, hk, rfl⟩ := List.mem_map.mp hx
      exact List.mem_map_of_mem _ ((mem_firstEncounterOrder _ k).mpr hk)
    have hMfe : maxNat ((firstEncounterOrder ((getMoodsForMonth store year month0).map
          (·.emoji))).map fun k => cnt k ((getMoodsForMonth store year month0).map (·.emoji))) =
        maxNat (((getMoodsForMonth store year month0).map (·.emoji)).map
          fun k => cnt k ((getMoodsForMonth store year month0).map (·.emoji))) :=
      le_antisymm (maxNat_le_of_subset hsub1) (maxNat_le_of_subset hsub2)
    have hMmem : maxNat (((getMoodsForMonth store year month0).map (·.emoji)).map
          fun k => cnt k ((getMoodsForMonth store year month0).map (·.emoji))) ∈
        ((getMoodsForMonth store year month0).map (·.emoji)).map
          fun k => cnt k ((getMoodsForMonth store year month0).map (·.emoji)) :=
      maxNat_mem (by simpa using hesne)
    obtain ⟨kM, hkM, hgkM⟩ := List.mem_map.mp hMmem
    have hfind_some : ((firstEncounterOrder ((getMoodsForMonth store year month0).map
          (·.emoji))).find? fun k =>
            cnt k ((getMoodsForMonth store year month0).map (·.emoji)) =
              maxNat (((getMoodsForMonth store year month0).map (·.emoji)).map
                fun k => cnt k ((getMoodsForMonth store year month0).map (·.emoji)))).isSome := by
      rw [List.find?_isSome]
      exact ⟨kM, (mem_firstEncounterOrder _ kM).mpr hkM, by simpa using hgkM⟩
    obtain ⟨e, he⟩ := Option.isSome_iff_exists.mp hfind_some
    have hpred : cnt e ((getMoodsForMonth store year month0).map (·.emoji)) =
        maxNat (((getMoodsForMonth store year month0).map (·.emoji)).map
          fun k => cnt k ((getMoodsForMonth store year month0).map (·.emoji))) := by
      simpa using List.find?_some he
    have hemem : e ∈ (getMoodsForMonth store year month0).map (·.emoji) :=
      (mem_firstEncounterOrder _ e).mp (List.mem_of_find?_eq_some he)
    refine ⟨e, ?_, hemem, hpred, he⟩
    unfold getMostCommonMood
    rw [if_neg (by simpa [List.isEmpty_iff] using hne)]
    rw [tally_eq]
    rw [pickFirstMax_spec _ none 0 rfl]
    have hsnd : (((firstEncounterOrder ((getMoodsForMonth store year month0).map
          (·.emoji))).map fun k =>
            (k, cnt k ((getMoodsForMonth store year month0).map (·.emoji)))).map (·.2)) =
        (firstEncounterOrder ((getMoodsForMonth store year month0).map (·.emoji))).map
          fun k => cnt k ((getMoodsForMonth store year month0).map (·.emoji)) := by
      rw [List.map_map]
      rfl
    simp only [hsnd, hMfe]
    rw [if_neg (by omega)]
    rw [find?_pair_of_find? _ _ _ e he]
    rfl

/-- Witness for C5: a concrete month with a 2-2 tie between 😊 (first
encountered) and 😢 returns 😊. -/
theorem getMostCommonMood_correct_witness :
    ∃ e, getMostCommonMood
        [(⟨"2024-03-01", "😊", "", [], 0⟩ : MoodEntry),
         ⟨"2024-03-02", "😢", "", [], 0⟩, ⟨"2024-03-03", "😢", "", [], 0⟩,
         ⟨"2024-03-04", "😊", "", [], 0⟩] 2024 2 = some e :=
  match (getMostCommonMood_correct
      [(⟨"2024-03-01", "😊", "", [], 0⟩ : MoodEntry),
       ⟨"2024-03-02", "😢", "", [], 0⟩, ⟨"2024-03-03", "😢", "", [], 0⟩,
       ⟨"2024-03-04", "😊", "", [], 0⟩] 2024 2).2 (by decide) with
  | ⟨e, h1, _⟩ => ⟨e, h1⟩

/-! ## Claim C8 — weekly insights -/

theorem one_le_emojiValue (e : String) : 1 ≤ emojiValue e := by
  unfold emojiValue
  split_ifs <;> omega

theorem dayStep_count_le_total {stats : Nat → Nat × Nat}
    (h : ∀ w, (stats w).2 ≤ (stats w).1) (m : MoodEntry) :
    ∀ w, ((dayStep stats m) w).2 ≤ ((dayStep stats m) w).1 := by
  intro w
  unfold dayStep
  cases epochDay m.date with
  | none => exact h w
  | some d =>
    dsimp only
    by_cases hw : w = weekdayOf d
    · rw [if_pos hw]
      have := h (weekdayOf d)
      have := one_le_emojiValue m.emoji
      dsimp only
      omega
    · rw [if_neg hw]
      exact h w

theorem weekdayStats_count_le_total (moods : List MoodEntry) :
    ∀ w, (weekdayStats moods w).2 ≤ (weekdayStats moods w).1 := by
  suffices h : ∀ (l : List MoodEntry) (stats : Nat → Nat × Nat),
      (∀ w, (stats w).2 ≤ (stats w).1) →
      ∀ w, ((l.foldl dayStep stats) w).2 ≤ ((l.foldl dayStep stats) w).1 by
    exact h moods (fun _ => (0, 0)) (fun _ => le_refl 0)
  intro l
  induction l with
  | nil => intro stats h w; exact h w
  | cons m rest ih =>
    intro stats h w
    exact ih (dayStep stats m) (dayStep_count_le_total h m) w

/-- Transitivity of the cross-multiplied average comparison
`tv/cv ≤ tw/cw ≤ tu/cu` (counts positive). -/
theorem crossmul_le_trans {tv cv tw cw tu cu : Nat} (hcw : 0 < cw)
    (h1 : tv * cw ≤ tw * cv) (h2 : tw * cu ≤ tu * cw) : tv * cu ≤ tu * cv := by
  have hstep : tv * cu * cw ≤ tu * cv * cw := by
    calc tv * cu * cw = (tv * cw) * cu := by ring
      _ ≤ (tw * cv) * cu := Nat.mul_le_mul_right _ h1
      _ = (tw * cu) * cv := by ring
      _ ≤ (tu * cw) * cv := Nat.mul_le_mul_right _ h2
      _ = tu * cv * cw := by ring
  exact Nat.le_of_mul_le_mul_right hstep hcw

/-- Invariant-carrying specification of the best/worst-day fold:
starting from a state that is correct for the processed days `done`, the
fold over the remaining days `ws` yields a best day iff some day
qualifies, a best day of maximal average and a worst day of minimal
average among the qualifying days. -/
theorem bwFold_spec (stats : Nat → Nat × Nat)
    (hts : ∀ v, (stats v).2 ≤ (stats v).1) :
    ∀ (ws done : List Nat) (b : Option Nat) (bt bc : Nat)
      (wo : Option Nat) (wt wc : Nat),
    (b = none → bt = 0 ∧ bc = 1 ∧ ∀ v ∈ done, ¬ 2 ≤ (stats v).2) →
    (∀ x, b = some x → x ∈ done ∧ 2 ≤ (stats x).2 ∧ (bt, bc) = stats x ∧
       ∀ v ∈ done, 2 ≤ (stats v).2 →
         (stats v).1 * (stats x).2 ≤ (stats x).1 * (stats v).2) →
    (wo = none → wt = 5 ∧ wc = 1 ∧
       ∀ v ∈ done, 2 ≤ (stats v).2 → 5 * (stats v).2 ≤ (stats v).1) →
    (∀ x, wo = some x → x ∈ done ∧ 2 ≤ (stats x).2 ∧ (wt, wc) = stats x ∧
       ∀ v ∈ done, 2 ≤ (stats v).2 →
         (stats x).1 * (stats v).2 ≤ (stats v).1 * (stats x).2) →
    ((ws.foldl (bwStep stats) ((b, bt, bc), (wo, wt, wc))).1.1 = none →
       ∀ v ∈ done ++ ws, ¬ 2 ≤ (stats v).2) ∧
    (∀ x, (ws.foldl (bwStep stats) ((b, bt, bc), (wo, wt, wc))).1.1 = some x →
       x ∈ done ++ ws ∧ 2 ≤ (stats x).2 ∧
       ∀ v ∈ done ++ ws, 2 ≤ (stats v).2 →
         (stats v).1 * (stats x).2 ≤ (stats x).1 * (stats v).2) ∧
    (∀ x, (ws.foldl (bwStep stats) ((b, bt, bc), (wo, wt, wc))).2.1 = some x →
       x ∈ done ++ ws ∧ 2 ≤ (stats x).2 ∧
       ∀ v ∈ done ++ ws, 2 ≤ (stats v).2 →
         (stats x).1 * (stats v).2 ≤ (stats v).1 * (stats x).2) := by
  intro ws
  induction ws with
  | nil =>
    intro done b bt bc wo wt wc hB1 hB2 hW1 hW2
    refine ⟨?_, ?_, ?_⟩
    · intro hnone v hv
      exact (hB1 hnone).2.2 v (by simpa using hv)
    · intro x hx
      obtain ⟨hmem, hq, _, hmax⟩ := hB2 x hx
      exact ⟨by simpa using hmem, hq, fun v hv hqv => hmax v (by simpa using hv) hqv⟩
    · intro x hx
      obtain ⟨hmem, hq, _, hmin⟩ := hW2 x hx
      exact ⟨by simpa using hmem, hq, fun v hv hqv => hmin v (by simpa using hv) hqv⟩
  | cons w ws' ih =>
    intro done b bt bc wo wt wc hB1 hB2 hW1 hW2
    rw [List.foldl_cons]
    have happ : ∀ (P : Nat → Prop), (∀ v ∈ (done ++ [w]) ++ ws', P v) ↔
        (∀ v ∈ done ++ w :: ws', P v) := by
      intro P
      constructor
      · intro h v hv
        apply h
        simp only [List.mem_append, List.mem_cons] at hv ⊢
        tauto
      · intro h v hv
        apply h
        simp only [List.mem_append, List.mem_cons] at hv ⊢
        tauto
    have hmemapp : ∀ v : Nat, v ∈ (done ++ [w]) ++ ws' ↔ v ∈ done ++ w :: ws' := by
      intro v
      simp only [List.mem_append, List.mem_cons]
      tauto
    by_cases hq : 2 ≤ (stats w).2
    · -- the day qualifies
      have hc0 : 0 < (stats w).2 := by omega
      have ht2 : 2 ≤ (stats w).1 := le_trans hq (hts w)
      have hstep : bwStep stats ((b, bt, bc), (wo, wt, wc)) w =
          ((if bt * (stats w).2 < (stats w).1 * bc
              then (some w, (stats w).1, (stats w).2) else (b, bt, bc)),
           (if (stats w).1 * wc < wt * (stats w).2
              then (some w, (stats w).1, (stats w).2) else (wo, wt, wc))) := by
        unfold bwStep
        rw [if_pos hq]
      rw [hstep]
      have htrans : ∀ st : (Option Nat × Nat × Nat) × (Option Nat × Nat × Nat),
          (((ws'.foldl (bwStep stats) st).1.1 = none →
              ∀ v ∈ (done ++ [w]) ++ ws', ¬ 2 ≤ (stats v).2) ∧
           (∀ x, (ws'.foldl (bwStep stats) st).1.1 = some x →
              x ∈ (done ++ [w]) ++ ws' ∧ 2 ≤ (stats x).2 ∧
              ∀ v ∈ (done ++ [w]) ++ ws', 2 ≤ (stats v).2 →
                (stats v).1 * (stats x).2 ≤ (stats x).1 * (stats v).2) ∧
           (∀ x, (ws'.foldl (bwStep stats) st).2.1 = some x →
              x ∈ (done ++ [w]) ++ ws' ∧ 2 ≤ (stats x).2 ∧
              ∀ v ∈ (done ++ [w]) ++ ws', 2 ≤ (stats v).2 →
                (stats x).1 * (stats v).2 ≤ (stats v).1 * (stats x).2)) →
          (((ws'.foldl (bwStep stats) st).1.1 = none →
              ∀ v ∈ done ++ w :: ws', ¬ 2 ≤ (stats v).2) ∧
           (∀ x, (ws'.foldl (bwStep stats) st).1.1 = some x →
              x ∈ done ++ w :: ws' ∧ 2 ≤ (stats x).2 ∧
              ∀ v ∈ done ++ w :: ws', 2 ≤ (stats v).2 →
                (stats v).1 * (stats x).2 ≤ (stats x).1 * (stats v).2) ∧
           (∀ x, (ws'.foldl (bwStep stats) st).2.1 = some x →
              x ∈ done ++ w :: ws' ∧ 2 ≤ (stats x).2 ∧
              ∀ v ∈ done ++ w :: ws', 2 ≤ (stats v).2 →
                (stats x).1 * (stats v).2 ≤ (stats v).1 * (stats x).2)) := by
        rintro st ⟨h1, h2, h3⟩
        refine ⟨?_, ?_, ?_⟩
        · intro hnone v hv
          exact h1 hnone v ((hmemapp v).mpr hv)
        · intro x hx
          obtain ⟨hmem, hqx, hmax⟩ := h2 x hx
          exact ⟨(hmemapp x).mp hmem, hqx,
            fun v hv hqv => hmax v ((hmemapp v).mpr hv) hqv⟩
        · intro x hx
          obtain ⟨hmem, hqx, hmin⟩ := h3 x hx
          exact ⟨(hmemapp x).mp hmem, hqx,
            fun v hv hqv => hmin v ((hmemapp v).mpr hv) hqv⟩
      have hwmem : w ∈ done ++ [w] :=
        List.mem_append_right _ (List.mem_singleton_self _)
      have hB1upd : (some w : Option Nat) = none →
          (stats w).1 = 0 ∧ (stats w).2 = 1 ∧
            ∀ v ∈ done ++ [w], ¬ 2 ≤ (stats v).2 := by
        intro h
        simp at h
      have hW1upd : (some w : Option Nat) = none →
          (stats w).1 = 5 ∧ (stats w).2 = 1 ∧
            ∀ v ∈ done ++ [w], 2 ≤ (stats v).2 → 5 * (stats v).2 ≤ (stats v).1 := by
        intro h
        simp at h
      have hB2upd : bt * (stats w).2 < (stats w).1 * bc →
          ∀ x, (some w : Option Nat) = some x → x ∈ done ++ [w] ∧ 2 ≤ (stats x).2 ∧
            (((stats w).1, (stats w).2) : Nat × Nat) = stats x ∧
            ∀ v ∈ done ++ [w], 2 ≤ (stats v).2 →
              (stats v).1 * (stats x).2 ≤ (stats x).1 * (stats v).2 := by
        intro hbu x hx
        obtain rfl : w = x := Option.some.inj hx
        refine ⟨hwmem, hq, rfl, ?_⟩
        intro v hv hqv
        rcases List.mem_append.mp hv with hvd | hvw
        · cases hb : b with
          | none =>
            exact absurd hqv ((hB1 hb).2.2 v hvd)
          | some wb =>
            obtain ⟨_, hqb, hpair, hmax⟩ := hB2 wb hb
            rw [Prod.ext_iff] at hpair
            have hbu' : (stats wb).1 * (stats w).2 ≤ (stats w).1 * (stats wb).2 := by
              rw [← hpair.1, ← hpair.2]
              exact le_of_lt hbu
            exact crossmul_le_trans (by omega) (hmax v hvd hqv) hbu'
        · rcases List.mem_singleton.mp hvw with rfl
          exact le_refl _
      have hW2upd : (stats w).1 * wc < wt * (stats w).2 →
          ∀ x, (some w : Option Nat) = some x → x ∈ done ++ [w] ∧ 2 ≤ (stats x).2 ∧
            (((stats w).1, (stats w).2) : Nat × Nat) = stats x ∧
            ∀ v ∈ done ++ [w], 2 ≤ (stats v).2 →
              (stats x).1 * (stats v).2 ≤ (stats v).1 * (stats x).2 := by
        intro hwu x hx
        obtain rfl : w = x := Option.some.inj hx
        refine ⟨hwmem, hq, rfl, ?_⟩
        intro v hv hqv
        rcases List.mem_append.mp hv with hvd | hvw
        · cases hw : wo with
          | none =>
            obtain ⟨h5, h1', hmin5⟩ := hW1 hw
            have hwu' : (stats w).1 * 1 ≤ 5 * (stats w).2 := by
              rw [← h5, ← h1']
              exact le_of_lt hwu
            exact crossmul_le_trans one_pos hwu' (by simpa using hmin5 v hvd hqv)
          | some wv =>
            obtain ⟨_, hqwv, hpair, hmin⟩ := hW2 wv hw
            rw [Prod.ext_iff] at hpair
            have hwu' : (stats w).1 * (stats wv).2 ≤ (stats wv).1 * (stats w).2 := by
              rw [← hpair.1, ← hpair.2]
              exact le_of_lt hwu
            exact crossmul_le_trans (by omega) hwu' (hmin v hvd hqv)
        · rcases List.mem_singleton.mp hvw with rfl
          exact le_refl _
      have hB1keep : ¬ (bt * (stats w).2 < (stats w).1 * bc) → b = none →
          bt = 0 ∧ bc = 1 ∧ ∀ v ∈ done ++ [w], ¬ 2 ≤ (stats v).2 := by
        intro hbu hnone
        obtain ⟨h0, h1', _⟩ := hB1 hnone
        exfalso
        apply hbu
        rw [h0, h1']
        have hpos : 0 < (stats w).1 := by omega
        simpa using hpos
      have hB2keep : ¬ (bt * (stats w).2 < (stats w).1 * bc) →
          ∀ x, b = some x → x ∈ done ++ [w] ∧ 2 ≤ (stats x).2 ∧
            (bt, bc) = stats x ∧
            ∀ v ∈ done ++ [w], 2 ≤ (stats v).2 →
              (stats v).1 * (stats x).2 ≤ (stats x).1 * (stats v).2 := by
        intro hbu x hx
        obtain ⟨hmem, hqx, hpair, hmax⟩ := hB2 x hx
        refine ⟨List.mem_append_left _ hmem, hqx, hpair, ?_⟩
        intro v hv hqv
        rcases List.mem_append.mp hv with hvd | hvw
        · exact hmax v hvd hqv
        · rcases List.mem_singleton.mp hvw with rfl
          rw [Prod.ext_iff] at hpair
          rw [← hpair.1, ← hpair.2]
          exact Nat.le_of_not_lt hbu
      have hW1keep : ¬ ((stats w).1 * wc < wt * (stats w).2) → wo = none →
          wt = 5 ∧ wc = 1 ∧
            ∀ v ∈ done ++ [w], 2 ≤ (stats v).2 → 5 * (stats v).2 ≤ (stats v).1 := by
        intro hwu hnone
        obtain ⟨h5, h1', hmin5⟩ := hW1 hnone
        refine ⟨h5, h1', ?_⟩
        intro v hv hqv
        rcases List.mem_append.mp hv with hvd | hvw
        · exact hmin5 v hvd hqv
        · rcases List.mem_singleton.mp hvw with rfl
          rw [h5, h1'] at hwu
          have := Nat.le_of_not_lt hwu
          omega
      have hW2keep : ¬ ((stats w).1 * wc < wt * (stats w).2) →
          ∀ x, wo = some x → x ∈ done ++ [w] ∧ 2 ≤ (stats x).2 ∧
            (wt, wc) = stats x ∧
            ∀ v ∈ done ++ [w], 2 ≤ (stats v).2 →
              (stats x).1 * (stats v).2 ≤ (stats v).1 * (stats x).2 := by
        intro hwu x hx
        obtain ⟨hmem, hqx, hpair, hmin⟩ := hW2 x hx
        refine ⟨List.mem_append_left _ hmem, hqx, hpair, ?_⟩
        intro v hv hqv
        rcases List.mem_append.mp hv with hvd | hvw
        · exact hmin v hvd hqv
        · rcases List.mem_singleton.mp hvw with rfl
          rw [Prod.ext_iff] at hpair
          rw [← hpair.1, ← hpair.2]
          exact Nat.le_of_not_lt hwu
      by_cases hbu : bt * (stats w).2 < (stats w).1 * bc <;>
        by_cases hwu : (stats w).1 * wc < wt * (stats w).2
      · rw [if_pos hbu, if_pos hwu]
        exact htrans _ (ih (done ++ [w]) (some w) (stats w).1 (stats w).2
          (some w) (stats w).1 (stats w).2 hB1upd (hB2upd hbu) hW1upd (hW2upd hwu))
      · rw [if_pos hbu, if_neg hwu]
        exact htrans _ (ih (done ++ [w]) (some w) (stats w).1 (stats w).2
          wo wt wc hB1upd (hB2upd hbu) (hW1keep hwu) (hW2keep hwu))
      · rw [if_neg hbu, if_pos hwu]
        exact htrans _ (ih (done ++ [w]) b bt bc
          (some w) (stats w).1 (stats w).2 (hB1keep hbu) (hB2keep hbu)
          hW1upd (hW2upd hwu))
      · rw [if_neg hbu, if_neg hwu]
        exact htrans _ (ih (done ++ [w]) b bt bc wo wt wc
          (hB1keep hbu) (hB2keep hbu) (hW1keep hwu) (hW2keep hwu))
    · -- the day does not qualify: state unchanged    · -- the day does not qualify: state unchanged
      have hstep : bwStep stats ((b, bt, bc), (wo, wt, wc)) w =
          ((b, bt, bc), (wo, wt, wc)) := by
        unfold bwStep
        rw [if_neg hq]
      rw [hstep]
      have hres := ih (done ++ [w]) b bt bc wo wt wc
        (by
          intro hnone
          obtain ⟨h1, h2, h3⟩ := hB1 hnone
          refine ⟨h1, h2, ?_⟩
          intro v hv
          rcases List.mem_append.mp hv with h | h
          · exact h3 v h
          · rcases List.mem_singleton.mp h with rfl
            exact hq)
        (by
          intro x hx
          obtain ⟨hmem, hqx, hpair, hmax⟩ := hB2 x hx
          refine ⟨List.mem_append_left _ hmem, hqx, hpair, ?_⟩
          intro v hv hqv
          rcases List.mem_append.mp hv with h | h
          · exact hmax v h hqv
          · rcases List.mem_singleton.mp h with rfl
            exact absurd hqv hq)
        (by
          intro hnone
          obtain ⟨h1, h2, h3⟩ := hW1 hnone
          refine ⟨h1, h2, ?_⟩
          intro v hv hqv
          rcases List.mem_append.mp hv with h | h
          · exact h3 v h hqv
          · rcases List.mem_singleton.mp h with rfl
            exact absurd hqv hq)
        (by
          intro x hx
          obtain ⟨hmem, hqx, hpair, hmin⟩ := hW2 x hx
          refine ⟨List.mem_append_left _ hmem, hqx, hpair, ?_⟩
          intro v hv hqv
          rcases List.mem_append.mp hv with h | h
          · exact hmin v h hqv
          · rcases List.mem_singleton.mp h with rfl
            exact absurd hqv hq)
      refine ⟨?_, ?_, ?_⟩
      · intro hnone v hv
        exact hres.1 hnone v ((hmemapp v).mpr hv)
      · intro x hx
        obtain ⟨hmem, hqx, hmax⟩ := hres.2.1 x hx
        exact ⟨(hmemapp x).mp hmem, hqx,
          fun v hv hqv => hmax v ((hmemapp v).mpr hv) hqv⟩
      · intro x hx
        obtain ⟨hmem, hqx, hmin⟩ := hres.2.2 x hx
        exact ⟨(hmemapp x).mp hmem, hqx,
          fun v hv hqv => hmin v ((hmemapp v).mpr hv) hqv⟩

theorem weekdayStats_count_aux : ∀ (l : List MoodEntry) (init : Nat → Nat × Nat) (w : Nat),
    ((l.foldl dayStep init) w).2 = (init w).2 + (l.countP fun m =>
      match epochDay m.date with
      | some d => weekdayOf d = w
      | none => false) := by
  intro l
  induction l with
  | nil => intro init w; simp
  | cons m rest ih =>
    intro init w
    rw [List.foldl_cons, ih]
    have hstep : ((dayStep init m) w).2 = (init w).2 + (if (match epochDay m.date with
        | some d => decide (weekdayOf d = w)
        | none => false) = true then 1 else 0) := by
      unfold dayStep
      cases hd : epochDay m.date with
      | none => simp
      | some d =>
        dsimp only
        by_cases hw : w = weekdayOf d
        · rw [if_pos hw]
          subst hw
          simp
        · rw [if_neg hw]
          have : ¬ (weekdayOf d = w) := fun h => hw h.symm
          simp [this]
    rw [List.countP_cons, hstep]
    ring

theorem weekdayStats_count (moods : List MoodEntry) (w : Nat) :
    (weekdayStats moods w).2 = entriesOnWeekday moods w := by
  rw [weekdayStats, entriesOnWeekday, weekdayStats_count_aux]
  simp

/-- **C8.** `generateWeeklyInsights` returns no insights whenever fewer
than 7 entries exist, regardless of content.  With at least 7 entries: a
weekday is a best/worst candidate only with at least 2 entries on that
weekday; a best day exists exactly when some weekday qualifies and it has
the highest average mood value (averages compared exactly by
cross-multiplication); the positive insight is emitted exactly when a
best day exists; and the info (worst-day) insight is emitted only when
the worst weekday — which has the lowest average — differs from the best
weekday. -/
theorem generateWeeklyInsights_correct (today : Int) (moods : List MoodEntry) :
    (moods.length < 7 → generateWeeklyInsights today moods = []) ∧
    (7 ≤ moods.length →
      ((∃ w, (bestWorstDay (weekdayStats moods)).1 = some w) ↔
        ∃ w < 7, 2 ≤ entriesOnWeekday moods w) ∧
      (∀ w, (bestWorstDay (weekdayStats moods)).1 = some w →
        w < 7 ∧ 2 ≤ entriesOnWeekday moods w ∧
        ∀ v < 7, 2 ≤ entriesOnWeekday moods v →
          (weekdayStats moods v).1 * (weekdayStats moods w).2 ≤
            (weekdayStats moods w).1 * (weekdayStats moods v).2) ∧
      (∀ w, (bestWorstDay (weekdayStats moods)).2 = some w →
        w < 7 ∧ 2 ≤ entriesOnWeekday moods w ∧
        ∀ v < 7, 2 ≤ entriesOnWeekday moods v →
          (weekdayStats moods w).1 * (weekdayStats moods v).2 ≤
            (weekdayStats moods v).1 * (weekdayStats moods w).2) ∧
      (((generateWeeklyInsights today moods).any fun i => i.itype = "positive") = true ↔
        ∃ w, (bestWorstDay (weekdayStats moods)).1 = some w) ∧
      (((generateWeeklyInsights today moods).any fun i => i.itype = "info") = true →
        ∃ wb ww, (bestWorstDay (weekdayStats moods)).1 = some wb ∧
          (bestWorstDay (weekdayStats moods)).2 = some ww ∧ ww ≠ wb)) := by
  constructor
  · intro h
    unfold generateWeeklyInsights
    rw [if_pos h]
  · intro h7
    have hts := weekdayStats_count_le_total moods
    have hfold := bwFold_spec (weekdayStats moods) hts (List.range 7) [] none 0 1 none 5 1
      (fun _ => ⟨rfl, rfl, by simp⟩)
      (fun x hx => by simp at hx)
      (fun _ => ⟨rfl, rfl, by simp⟩)
      (fun x hx => by simp at hx)
    have hbfst : (bestWorstDay (weekdayStats moods)).1 =
        ((List.range 7).foldl (bwStep (weekdayStats moods))
          ((none, 0, 1), (none, 5, 1))).1.1 := rfl
    have hbsnd : (bestWorstDay (weekdayStats moods)).2 =
        ((List.range 7).foldl (bwStep (weekdayStats moods))
          ((none, 0, 1), (none, 5, 1))).2.1 := rfl
    have hmemr : ∀ v : Nat, v ∈ ([] : List Nat) ++ List.range 7 ↔ v < 7 := by
      intro v
      simp [List.mem_range]
    refine ⟨?_, ?_, ?_, ?_, ?_⟩
    · constructor
      · rintro ⟨w, hw⟩
        rw [hbfst] at hw
        obtain ⟨hmem, hq, _⟩ := hfold.2.1 w hw
        exact ⟨w, (hmemr w).mp hmem, by rw [← weekdayStats_count]; exact hq⟩
      · rintro ⟨w, hw7, hwq⟩
        cases hb : (bestWorstDay (weekdayStats moods)).1 with
        | some x => exact ⟨x, rfl⟩
        | none =>
          rw [hbfst] at hb
          exact absurd (by rw [weekdayStats_count]; exact hwq)
            (hfold.1 hb w ((hmemr w).mpr hw7))
    · intro w hw
      rw [hbfst] at hw
      obtain ⟨hmem, hq, hmax⟩ := hfold.2.1 w hw
      exact ⟨(hmemr w).mp hmem, by rw [← weekdayStats_count]; exact hq,
        fun v hv7 hvq => hmax v ((hmemr v).mpr hv7)
          (by rw [weekdayStats_count]; exact hvq)⟩
    · intro w hw
      rw [hbsnd] at hw
      obtain ⟨hmem, hq, hmin⟩ := hfold.2.2 w hw
      exact ⟨(hmemr w).mp hmem, by rw [← weekdayStats_count]; exact hq,
        fun v hv7 hvq => hmin v ((hmemr v).mpr hv7)
          (by rw [weekdayStats_count]; exact hvq)⟩
    · -- the positive insight is present exactly when a best day exists
      have h7' : ¬ moods.length < 7 := by omega
      unfold generateWeeklyInsights
      rw [if_neg h7']
      have hpair := (Prod.mk.eta (p := bestWorstDay (weekdayStats moods))).symm
      rcases hbd : (bestWorstDay (weekdayStats moods)).1 with _ | wb <;>
        rcases hwd : (bestWorstDay (weekdayStats moods)).2 with _ | ww <;>
        rw [hbd, hwd] at hpair <;> dsimp only <;> rw [hpair] <;> dsimp only <;>
        cases hpm : pickFirstMax (tally (moods.map (·.emoji))) none <;>
        by_cases hs : 7 ≤ getCurrentStreakDays today moods <;>
        simp [hs, List.any_append]
    · -- the info insight needs distinct best and worst days
      have h7' : ¬ moods.length < 7 := by omega
      unfold generateWeeklyInsights
      rw [if_neg h7']
      have hpair := (Prod.mk.eta (p := bestWorstDay (weekdayStats moods))).symm
      rcases hbd : (bestWorstDay (weekdayStats moods)).1 with _ | wb <;>
        rcases hwd : (bestWorstDay (weekdayStats moods)).2 with _ | ww <;>
        rw [hbd, hwd] at hpair <;> dsimp only <;> rw [hpair] <;> dsimp only
      · intro h
        exfalso
        revert h
        cases hpm : pickFirstMax (tally (moods.map (·.emoji))) none <;>
          by_cases hs : 7 ≤ getCurrentStreakDays today moods <;>
          simp [hs, List.any_append]
      · -- best none, worst some: impossible, since a qualifying day sets best
        intro _
        exfalso
        rw [hbsnd] at hwd
        obtain ⟨hmem, hq, _⟩ := hfold.2.2 ww hwd
        rw [hbfst] at hbd
        exact absurd hq (hfold.1 hbd ww hmem)
      · intro h
        exfalso
        revert h
        cases hpm : pickFirstMax (tally (moods.map (·.emoji))) none <;>
          by_cases hs : 7 ≤ getCurrentStreakDays today moods <;>
          simp [hs, List.any_append]
      · by_cases hne : wb ≠ ww
        · intro _
          exact ⟨wb, ww, rfl, rfl, fun h => hne h.symm⟩
        · push_neg at hne
          subst hne
          rw [if_neg (by simp)]
          intro h
          exfalso
          revert h
          cases hpm : pickFirstMax (tally (moods.map (·.emoji))) none <;>
            by_cases hs : 7 ≤ getCurrentStreakDays today moods <;>
            simp [hs, List.any_append]

/-- Witness for C8: in the 8-entry example two entries fall on Sunday, so
a best day exists and the positive insight is emitted. -/
theorem generateWeeklyInsights_correct_witness :
    ((generateWeeklyInsights 0 insightExample).any fun i => i.itype = "positive") = true :=
  ((generateWeeklyInsights_correct 0 insightExample).2 (by decide)).2.2.2.1.mpr
    (((generateWeeklyInsights_correct 0 insightExample).2 (by decide)).1.mpr
      ⟨0, by decide, by decide⟩)

/-! ## Claim C9 — tag uniqueness -/

/-- An element of the collection `saveMood` returns is either the entry
just stored or an entry of the previous collection. -/
theorem saveMood_mem_cases {now : Int} {store : List MoodEntry}
    {d e n : String} {t? : Option (List String)} {m : MoodEntry}
    (hm : m ∈ (saveMood now store d e n t?).2) :
    m = (saveMood now store d e n t?).1 ∨ m ∈ store := by
  have hperm := saveMood_pre_sort now store d e n t?
  cases hfind : store.find? fun x => x.date = d with
  | some old =>
    rw [hfind] at hperm
    exact mem_replaceFirst _ (hperm.subset hm)
  | none =>
    rw [hfind] at hperm
    rcases List.mem_append.mp (hperm.subset hm) with h | h
    · exact Or.inr h
    · exact Or.inl (List.mem_singleton.mp h)

/-- `saveMood` keeps all tag lists duplicate-free provided the explicit
tags argument, if any, is duplicate-free. -/
theorem saveMood_tags_nodup {now : Int} {store : List MoodEntry}
    (htags : ∀ m ∈ store, m.tags.Nodup)
    (d e n : String) (t? : Option (List String))
    (ht : ∀ t, t? = some t → t.Nodup) :
    ∀ m ∈ (saveMood now store d e n t?).2, m.tags.Nodup := by
  intro m hm
  rcases saveMood_mem_cases hm with rfl | hmem
  · -- the stored entry
    show (match t? with
      | some t => t
      | none =>
        match store.find? fun x : MoodEntry => x.date = d with
        | some old => old.tags
        | none => []).Nodup
    cases t? with
    | some t => exact ht t rfl
    | none =>
      cases hfind : store.find? fun x : MoodEntry => x.date = d with
      | some old => exact htags old (List.mem_of_find?_eq_some hfind)
      | none => exact List.nodup_nil
  · exact htags m hmem

theorem importRow_tags_nodup {now dI eI nI : Int} {st : Nat × List MoodEntry}
    (htags : ∀ m ∈ st.2, m.tags.Nodup) (line : String) :
    ∀ m ∈ (importRow now dI eI nI st line).2, m.tags.Nodup := by
  unfold importRow
  by_cases h1 : jsTrim line = ""
  · simpa [h1] using htags
  · simp only [if_neg h1]
    by_cases h2 : (jsAt (parseCSVLine (jsTrim line)) dI ≠ "" &&
        jsAt (parseCSVLine (jsTrim line)) eI ≠ "" &&
        isValidDate (jsAt (parseCSVLine (jsTrim line)) dI)) = true
    · simp only [h2, if_true]
      exact saveMood_tags_nodup htags _ _ _ _ (fun t ht => by cases ht)
    · simp only [h2, if_false]
      exact htags

/-- **C9 (amended).** Tag lists stay duplicate-free across the
tag-writing operations: `save` preserves the invariant whenever its
explicit tags argument (stored verbatim) is itself duplicate-free,
`addTagToMood` appends the tag at the end only when absent (preserving
insertion order), `removeTagFromMood` filters, and CSV import never
passes tags; each keeps every stored entry's tags duplicate-free. -/
theorem tags_nodup_invariant (now : Int) (store : List MoodEntry)
    (htags : ∀ m ∈ store, m.tags.Nodup) :
    (∀ (d e n : String) (t? : Option (List String)), (∀ t, t? = some t → t.Nodup) →
       ∀ m ∈ (saveMood now store d e n t?).2, m.tags.Nodup) ∧
    (∀ d tag, (∀ m ∈ (addTagToMood now store d tag).2, m.tags.Nodup) ∧
       (addTagToMood now store d tag).1 =
         (getMood store d).map fun mood =>
           if tag ∈ mood.tags then mood.tags else mood.tags ++ [tag]) ∧
    (∀ d tag, ∀ m ∈ (removeTagFromMood now store d tag).2, m.tags.Nodup) ∧
    (∀ csv r, importFromCSV now store csv = .ok r →
       ∀ m ∈ r.2, m.tags.Nodup) := by
  refine ⟨fun d e n t? ht => saveMood_tags_nodup htags d e n t? ht, ?_, ?_, ?_⟩
  · intro d tag
    unfold addTagToMood
    cases hfind : getMood store d with
    | none => exact ⟨htags, rfl⟩
    | some mood =>
      dsimp only
      have hmood : mood ∈ store := List.mem_of_find?_eq_some hfind
      by_cases htag : tag ∈ mood.tags
      · simp only [Option.map_some', if_pos htag]
        exact ⟨htags, trivial⟩
      · simp only [Option.map_some', if_neg htag]
        refine ⟨?_, trivial⟩
        refine saveMood_tags_nodup htags _ _ _ _ ?_
        intro t htEq
        obtain rfl := Option.some.inj htEq
        have hnd := htags mood hmood
        rw [List.nodup_append]
        refine ⟨hnd, List.nodup_singleton _, ?_⟩
        intro a ha hb
        rw [List.mem_singleton] at hb
        subst hb
        exact htag ha
  · intro d tag
    unfold removeTagFromMood
    cases hfind : getMood store d with
    | none => exact htags
    | some mood =>
      dsimp only
      refine saveMood_tags_nodup htags _ _ _ _ ?_
      intro t htEq
      obtain rfl := Option.some.inj htEq
      exact (htags mood (List.mem_of_find?_eq_some hfind)).filter _
  · intro csv r himp
    unfold importFromCSV at himp
    dsimp only at himp
    split at himp
    · exact absurd himp (by simp)
    · split at himp
      · exact absurd himp (by simp)
      · injection himp with hr
        rw [← hr]
        suffices h : ∀ (lines : List String) (st : Nat × List MoodEntry),
            (∀ m ∈ st.2, m.tags.Nodup) →
            ∀ m ∈ ((lines.foldl (importRow now _ _ _) st)).2, m.tags.Nodup from
          h _ (0, store) htags
        intro lines
        induction lines with
        | nil => intro st h; exact h
        | cons l rest ih =>
          intro st h
          exact ih _ (importRow_tags_nodup h l)

/-- Witness for C9 (amended): from a store holding an entry tagged
`["work"]`, adding the tag `health` appends it and every tag list stays
duplicate-free. -/
theorem tags_nodup_invariant_witness :
    (∀ m ∈ (addTagToMood 1
        [(⟨"2024-01-02", "😊", "", ["work"], 0⟩ : MoodEntry)]
        "2024-01-02" "health").2, m.tags.Nodup) ∧
    (addTagToMood 1 [(⟨"2024-01-02", "😊", "", ["work"], 0⟩ : MoodEntry)]
        "2024-01-02" "health").1 = some ["work", "health"] := by
  have h := (tags_nodup_invariant 1
    [(⟨"2024-01-02", "😊", "", ["work"], 0⟩ : MoodEntry)]
    (by decide)).2.1 "2024-01-02" "health"
  exact ⟨h.1, by rw [h.2]; rfl⟩

/-- Counterexample for C9 as stated: `save` stores an explicit tags
argument verbatim, so saving with a duplicated tag list puts an entry
with duplicate tags into the store — `save` alone does not preserve the
uniqueness invariant. -/
theorem saveMood_duplicate_tags_counterexample :
    ∃ m ∈ (saveMood 0 [] "2024-01-01" "😊" "" (some ["a", "a"])).2,
      ¬ m.tags.Nodup := by decide

/-! ## Claim C7 — CSV import error and acceptance behaviour -/

/-- The import loop increments the counter once per importable row and
performs each importable row's save, in order. -/
theorem importFold_eq (now dI eI nI : Int) : ∀ (lines : List String)
    (st : Nat × List MoodEntry),
    lines.foldl (importRow now dI eI nI) st =
      (st.1 + (lines.filter (rowImportable dI eI)).length,
       (lines.filter (rowImportable dI eI)).foldl (rowSave now dI eI nI) st.2) := by
  intro lines
  induction lines with
  | nil => intro st; simp
  | cons l rest ih =>
    intro st
    rw [List.foldl_cons, List.filter_cons]
    by_cases h1 : jsTrim l = ""
    · have hrow : importRow now dI eI nI st l = st := by
        unfold importRow
        rw [if_pos h1]
      have himp : rowImportable dI eI l = false := by
        unfold rowImportable
        simp [h1]
      rw [hrow, himp, ih]
      simp
    · by_cases h2 : (jsAt (parseCSVLine (jsTrim l)) dI ≠ "" &&
          jsAt (parseCSVLine (jsTrim l)) eI ≠ "" &&
          isValidDate (jsAt (parseCSVLine (jsTrim l)) dI)) = true
      · have hrow : importRow now dI eI nI st l =
            (st.1 + 1, rowSave now dI eI nI st.2 l) := by
          unfold importRow
          rw [if_neg h1]
          dsimp only
          rw [if_pos h2]
          rfl
        have himp : rowImportable dI eI l = true := by
          unfold rowImportable
          simp only [Bool.and_eq_true, decide_eq_true_eq] at h2 ⊢
          refine ⟨⟨⟨h1, h2.1.1⟩, h2.1.2⟩, h2.2⟩
        rw [hrow, himp, ih]
        simp only [if_true, List.length_cons, List.foldl_cons]
        rw [Prod.ext_iff]
        exact ⟨by omega, rfl⟩
      · have hrow : importRow now dI eI nI st l = st := by
          unfold importRow
          rw [if_neg h1]
          dsimp only
          rw [if_neg h2]
        have himp : rowImportable dI eI l = false := by
          unfold rowImportable
          rw [Bool.eq_false_iff]
          intro hcon
          simp only [Bool.and_eq_true, decide_eq_true_eq, ne_eq] at hcon h2
          exact h2 ⟨⟨hcon.1.1.2, hcon.1.2⟩, hcon.2⟩
        rw [hrow, himp, ih]
        simp

/-- **C7 (amended).** `importFromCSV` fails exactly when the trimmed
input has fewer than 2 lines or the lowercased header lacks `"date"` or
`"emoji"` as a substring; otherwise it succeeds, returning the count of
exactly those data rows that are non-blank with non-empty date and emoji
fields (located by exact header-token positions) and a valid date, each
merged into the store via `saveMood` in row order. -/
theorem importFromCSV_correct (now : Int) (store : List MoodEntry) (csv : String) :
    ((∃ msg, importFromCSV now store csv = .error msg) ↔
      ((jsSplit '\n' (jsTrim csv)).length < 2 ∨
        jsIncludes (jsToLower ((jsSplit '\n' (jsTrim csv)).headD "")) "date" = false ∨
        jsIncludes (jsToLower ((jsSplit '\n' (jsTrim csv)).headD "")) "emoji" = false)) ∧
    (∀ n store', importFromCSV now store csv = .ok (n, store') →
      n = (((jsSplit '\n' (jsTrim csv)).drop 1).filter
            (rowImportable
              (jsIndexOf ((jsSplit ','
                (jsToLower ((jsSplit '\n' (jsTrim csv)).headD ""))).map jsTrim) "date")
              (jsIndexOf ((jsSplit ','
                (jsToLower ((jsSplit '\n' (jsTrim csv)).headD ""))).map jsTrim) "emoji"))).length ∧
      store' = (((jsSplit '\n' (jsTrim csv)).drop 1).filter
            (rowImportable
              (jsIndexOf ((jsSplit ','
                (jsToLower ((jsSplit '\n' (jsTrim csv)).headD ""))).map jsTrim) "date")
              (jsIndexOf ((jsSplit ','
                (jsToLower ((jsSplit '\n' (jsTrim csv)).headD ""))).map jsTrim) "emoji"))).foldl
            (rowSave now
              (jsIndexOf ((jsSplit ','
                (jsToLower ((jsSplit '\n' (jsTrim csv)).headD ""))).map jsTrim) "date")
              (jsIndexOf ((jsSplit ','
                (jsToLower ((jsSplit '\n' (jsTrim csv)).headD ""))).map jsTrim) "emoji")
              (jsIndexOf ((jsSplit ','
                (jsToLower ((jsSplit '\n' (jsTrim csv)).headD ""))).map jsTrim) "note"))
            store) := by
  have hunf : importFromCSV now store csv =
      (if (jsSplit '\n' (jsTrim csv)).length < 2 then
        .error "CSV file is empty or has no data rows"
      else if (!jsIncludes (jsToLower ((jsSplit '\n' (jsTrim csv)).headD "")) "date" ||
          !jsIncludes (jsToLower ((jsSplit '\n' (jsTrim csv)).headD "")) "emoji") then
        .error "CSV must have Date and Emoji columns"
      else .ok (((jsSplit '\n' (jsTrim csv)).drop 1).foldl
        (importRow now
          (jsIndexOf ((jsSplit ','
            (jsToLower ((jsSplit '\n' (jsTrim csv)).headD ""))).map jsTrim) "date")
          (jsIndexOf ((jsSplit ','
            (jsToLower ((jsSplit '\n' (jsTrim csv)).headD ""))).map jsTrim) "emoji")
          (jsIndexOf ((jsSplit ','
            (jsToLower ((jsSplit '\n' (jsTrim csv)).headD ""))).map jsTrim) "note"))
        (0, store))) := rfl
  constructor
  · constructor
    · rintro ⟨msg, hmsg⟩
      rw [hunf] at hmsg
      split at hmsg
      · left
        assumption
      · split at hmsg
        · right
          rename_i hcond
          rcases Bool.or_eq_true _ _ |>.mp hcond with h | h
          · left
            simpa using h
          · right
            simpa using h
        · exact absurd hmsg (by simp)
    · intro hcase
      rw [hunf]
      by_cases h1 : (jsSplit '\n' (jsTrim csv)).length < 2
      · rw [if_pos h1]
        exact ⟨_, rfl⟩
      · rw [if_neg h1]
        have hcond : (!jsIncludes (jsToLower ((jsSplit '\n'
            (jsTrim csv)).headD "")) "date" ||
            !jsIncludes (jsToLower ((jsSplit '\n'
              (jsTrim csv)).headD "")) "emoji") = true := by
          rcases hcase with h | h | h
          · exact absurd h h1
          · rw [h]
            rfl
          · rw [h]
            simp
        rw [if_pos hcond]
        exact ⟨_, rfl⟩
  · intro n store' hok
    rw [hunf] at hok
    split at hok
    · exact absurd hok (by simp)
    · split at hok
      · exact absurd hok (by simp)
      · rw [importFold_eq] at hok
        have hinj := Except.ok.inj hok
        rw [Prod.ext_iff] at hinj
        obtain ⟨hn, hs⟩ := hinj
        exact ⟨by omega, hs.symm⟩

/-- Witness for C7 (amended): a two-line CSV whose header lacks an emoji
column fails with a `FormatError`. -/
theorem importFromCSV_correct_witness :
    ∃ msg, importFromCSV 0 [] "Date,Note\n2024-01-01,x" = .error msg :=
  (importFromCSV_correct 0 [] "Date,Note\n2024-01-01,x").1.mpr (by decide)

/-- Counterexample for C7 as stated: the header `dateemoji,x` has no
`date` (nor `emoji`) column, yet the import does not throw — the header
check is a substring test — and it returns 0 because the exact-token
column lookup fails. -/
theorem importFromCSV_header_counterexample :
    importFromCSV 0 [] "dateemoji,x\n1,2" = .ok (0, []) ∧
    "date" ∉ (jsSplit ',' (jsToLower "dateemoji,x")).map jsTrim ∧
    "emoji" ∉ (jsSplit ',' (jsToLower "dateemoji,x")).map jsTrim ∧
    ¬ (jsSplit '\n' (jsTrim "dateemoji,x\n1,2")).length < 2 :=
  ⟨rfl, by decide, by decide, by decide⟩

/-! ## Claim C6 — CSV round-trip -/

theorem str_data_append (a b : String) : (a ++ b).data = a.data ++ b.data := rfl

theorem dropWhile_eq_self_of_head {l : List Char}
    (h : ∀ c, l.head? = some c → isWS c = false) : l.dropWhile isWS = l := by
  cases l with
  | nil => rfl
  | cons c rest =>
    rw [List.dropWhile_cons, if_neg]
    rw [h c rfl]
    simp

theorem trimChars_eq_self {l : List Char}
    (h1 : ∀ c, l.head? = some c → isWS c = false)
    (h2 : ∀ c, l.getLast? = some c → isWS c = false) : trimChars l = l := by
  unfold trimChars
  rw [dropWhile_eq_self_of_head h1, dropWhile_eq_self_of_head
    (by
      intro c hc
      rw [List.head?_reverse] at hc
      exact h2 c hc),
    List.reverse_reverse]

theorem splitCh_cons (sep c : Char) (cs : List Char) : splitCh sep (c :: cs) =
    match splitCh sep cs with
    | [] => [[]]
    | l :: ls => if c = sep then [] :: l :: ls else (c :: l) :: ls := rfl

theorem splitCh_ne_nil (sep : Char) : ∀ l : List Char, splitCh sep l ≠ [] := by
  intro l
  cases l with
  | nil => simp [splitCh]
  | cons c cs =>
    rw [splitCh_cons]
    cases h : splitCh sep cs with
    | nil => simp
    | cons a rest =>
      by_cases hc : c = sep <;> simp [hc]

theorem splitCh_no_sep {sep : Char} : ∀ {l : List Char}, sep ∉ l →
    splitCh sep l = [l] := by
  intro l
  induction l with
  | nil => intro _; rfl
  | cons c cs ih =>
    intro h
    have hc : c ≠ sep := fun hc => h (hc ▸ List.mem_cons_self _ _)
    have hcs : sep ∉ cs := fun hm => h (List.mem_cons_of_mem _ hm)
    rw [splitCh_cons, ih hcs]
    simp [hc]

theorem splitCh_append_sep {sep : Char} : ∀ {s : List Char} (rest : List Char),
    sep ∉ s → splitCh sep (s ++ sep :: rest) = s :: splitCh sep rest := by
  intro s
  induction s with
  | nil =>
    intro rest _
    show splitCh sep (sep :: rest) = [] :: splitCh sep rest
    rw [splitCh_cons]
    cases h : splitCh sep rest with
    | nil => exact absurd h (splitCh_ne_nil sep rest)
    | cons a as => simp
  | cons c cs ih =>
    intro rest h
    have hc : c ≠ sep := fun hc => h (hc ▸ List.mem_cons_self _ _)
    have hcs : sep ∉ cs := fun hm => h (List.mem_cons_of_mem _ hm)
    show splitCh sep (c :: (cs ++ sep :: rest)) = (c :: cs) :: splitCh sep rest
    rw [splitCh_cons, ih rest hcs]
    simp [hc]

theorem jsSplit_joinLines : ∀ (parts : List String) (s : String),
    (∀ p ∈ s :: parts, '\n' ∉ p.data) →
    jsSplit '\n' (joinLines (s :: parts)) = s :: parts := by
  intro parts
  induction parts with
  | nil =>
    intro s h
    unfold jsSplit joinLines
    rw [splitCh_no_sep (h s (List.mem_cons_self _ _))]
    rfl
  | cons p rest ih =>
    intro s h
    have hjoin : joinLines (s :: p :: rest) = (s ++ "\n") ++ joinLines (p :: rest) := by
      show s ++ "\n" ++ joinLines (p :: rest) = _
      rfl
    unfold jsSplit
    rw [hjoin, str_data_append, str_data_append]
    have hdata : (s.data ++ "\n".data) ++ (joinLines (p :: rest)).data =
        s.data ++ '\n' :: (joinLines (p :: rest)).data := by
      rw [List.append_assoc]
      rfl
    rw [hdata, splitCh_append_sep _ (h s (List.mem_cons_self _ _))]
    have hrec := ih p fun q hq => h q (List.mem_cons_of_mem _ hq)
    unfold jsSplit at hrec
    rw [List.map_cons, hrec]

theorem escQuotes_eq_self : ∀ {l : List Char}, '"' ∉ l → escQuotes l = l := by
  intro l
  induction l with
  | nil => intro _; rfl
  | cons c cs ih =>
    intro h
    have hc : c ≠ '"' := fun hc => h (hc ▸ List.mem_cons_self _ _)
    unfold escQuotes
    rw [if_neg hc, ih fun hm => h (List.mem_cons_of_mem _ hm)]

theorem stripOuterQuotes_eq_self {s : String} (h : '"' ∉ s.data) :
    stripOuterQuotes s = s := by
  unfold stripOuterQuotes
  have h1 : (match s.data with
      | '"' :: rest => rest
      | other => other) = s.data := by
    cases hd : s.data with
    | nil => rfl
    | cons c rest =>
      by_cases hc : c = '"'
      · subst hc
        exact absurd (hd ▸ List.mem_cons_self _ _) h
      · cases c <;> simp_all
  have h2 : (match s.data.reverse with
      | '"' :: rest => rest.reverse
      | _ => s.data) = s.data := by
    cases hd : s.data.reverse with
    | nil => rfl
    | cons c rest =>
      by_cases hc : c = '"'
      · subst hc
        have : '"' ∈ s.data := by
          rw [← List.mem_reverse, hd]
          exact List.mem_cons_self _ _
        exact absurd this h
      · cases c <;> simp_all
  rw [h1]
  dsimp only
  rw [h2]

theorem jsTrim_eq_self_of_all {s : String} (h : ∀ c ∈ s.data, isWS c = false) :
    jsTrim s = s := by
  unfold jsTrim
  rw [trimChars_eq_self]
  · intro c hc
    apply h
    cases hd : s.data with
    | nil => rw [hd] at hc; cases hc
    | cons a rest =>
      rw [hd, List.head?_cons] at hc
      injection hc with hac
      cases hac
      exact List.mem_cons_self _ _
  · intro c hc
    apply h
    obtain ⟨hne, heq⟩ := List.mem_getLast?_eq_getLast (Option.mem_def.mpr hc)
    rw [heq]
    exact List.getLast_mem _

theorem parseCSVLineAux_cons (c : Char) (rest acc : List Char) (inQ : Bool) :
    parseCSVLineAux (c :: rest) acc inQ =
      if c = '"' then parseCSVLineAux rest acc (!inQ)
      else if c = ',' && !inQ then jsTrim ⟨acc.reverse⟩ :: parseCSVLineAux rest [] inQ
      else parseCSVLineAux rest (c :: acc) inQ := rfl

theorem parseCSVLineAux_field : ∀ (cs acc rest : List Char),
    (∀ c ∈ cs, c ≠ '"' ∧ c ≠ ',') →
    parseCSVLineAux (cs ++ ',' :: rest) acc false =
      jsTrim ⟨acc.reverse ++ cs⟩ :: parseCSVLineAux rest [] false := by
  intro cs
  induction cs with
  | nil =>
    intro acc rest _
    show parseCSVLineAux (',' :: rest) acc false = _
    rw [parseCSVLineAux_cons, if_neg (by decide), if_pos (by decide)]
    rw [List.append_nil]
  | cons c cs ih =>
    intro acc rest h
    obtain ⟨hq, hcm⟩ := h c (List.mem_cons_self _ _)
    show parseCSVLineAux (c :: (cs ++ ',' :: rest)) acc false = _
    rw [parseCSVLineAux_cons, if_neg hq, if_neg (by simp [hcm]),
      ih (c :: acc) rest fun x hx => h x (List.mem_cons_of_mem _ hx)]
    have : (c :: acc).reverse ++ cs = acc.reverse ++ c :: cs := by
      rw [List.reverse_cons, List.append_assoc]
      rfl
    rw [this]

theorem parseCSVLineAux_quoted : ∀ (quotedChars acc : List Char),
    (∀ c ∈ quotedChars, c ≠ '"') →
    parseCSVLineAux (quotedChars ++ ['"']) acc true =
      [jsTrim ⟨acc.reverse ++ quotedChars⟩] := by
  intro quotedChars
  induction quotedChars with
  | nil =>
    intro acc _
    show parseCSVLineAux ['"'] acc true = _
    rw [parseCSVLineAux_cons, if_pos rfl]
    show [jsTrim ⟨acc.reverse⟩] = _
    rw [List.append_nil]
  | cons c cs ih =>
    intro acc h
    have hq : c ≠ '"' := h c (List.mem_cons_self _ _)
    show parseCSVLineAux (c :: (cs ++ ['"'])) acc true = _
    rw [parseCSVLineAux_cons, if_neg hq, if_neg (by simp),
      ih (c :: acc) fun x hx => h x (List.mem_cons_of_mem _ hx)]
    have : (c :: acc).reverse ++ cs = acc.reverse ++ c :: cs := by
      rw [List.reverse_cons, List.append_assoc]
      rfl
    rw [this]

/-- Parsing one exported row with quote-free fields recovers the three
trimmed fields. -/
theorem parseCSVLine_row (d e n : String)
    (hd : ∀ c ∈ d.data, c ≠ '"' ∧ c ≠ ',')
    (he : ∀ c ∈ e.data, c ≠ '"' ∧ c ≠ ',')
    (hn : ∀ c ∈ n.data, c ≠ '"') :
    parseCSVLine (d ++ "," ++ e ++ ",\"" ++ n ++ "\"") =
      [jsTrim d, jsTrim e, jsTrim n] := by
  have hsplit : (d ++ "," ++ e ++ ",\"" ++ n ++ "\"").data =
      d.data ++ ',' :: (e.data ++ ',' :: ('"' :: (n.data ++ ['"']))) := by
    simp only [str_data_append, List.append_assoc]
    rfl
  unfold parseCSVLine
  rw [hsplit, parseCSVLineAux_field d.data [] _ hd]
  rw [parseCSVLineAux_field e.data [] _ he]
  have hinner : parseCSVLineAux ('"' :: (n.data ++ ['"'])) [] false =
      [jsTrim ⟨n.data⟩] := by
    rw [parseCSVLineAux_cons, if_pos rfl]
    show parseCSVLineAux (n.data ++ ['"']) [] true = _
    rw [parseCSVLineAux_quoted n.data [] hn]
    rfl
  rw [hinner]
  rfl

/-- The characters of a valid date string: ten digits-or-dashes starting
with a digit. -/
theorem date_chars {s : String} (h : (epochDay s).isSome = true) :
    ∃ c0 rest, s.data = c0 :: rest ∧ isDigitCh c0 = true ∧
      ∀ c ∈ s.data, isDigitCh c = true ∨ c = '-' := by
  unfold epochDay at h
  cases hp : parseYMD s with
  | none => rw [hp] at h; simp at h
  | some v =>
    unfold parseYMD at hp
    split at hp
    case h_2 => exact absurd hp (by simp)
    case h_1 y1 y2 y3 y4 c1 m1 m2 c2 d1 d2 heq =>
      split at hp
      case isFalse => exact absurd hp (by simp)
      case isTrue hguard =>
        simp only [Bool.and_eq_true, decide_eq_true_eq] at hguard
        obtain ⟨⟨⟨⟨⟨⟨⟨⟨⟨hy1, hy2⟩, hy3⟩, hy4⟩, hc1⟩, hm1⟩, hm2⟩, hc2⟩, hd1⟩, hd2⟩ := hguard
        refine ⟨y1, _, heq, hy1, ?_⟩
        intro c hc
        rw [heq] at hc
        simp only [List.mem_cons, List.not_mem_nil, or_false] at hc
        rcases hc with rfl | rfl | rfl | rfl | rfl | rfl | rfl | rfl | rfl | rfl
        · exact Or.inl hy1
        · exact Or.inl hy2
        · exact Or.inl hy3
        · exact Or.inl hy4
        · exact Or.inr hc1
        · exact Or.inl hm1
        · exact Or.inl hm2
        · exact Or.inr hc2
        · exact Or.inl hd1
        · exact Or.inl hd2

/-- A digit-or-dash character is none of the CSV metacharacters and not
whitespace. -/
theorem dateChar_clean {c : Char} (h : isDigitCh c = true ∨ c = '-') :
    c ≠ '"' ∧ c ≠ ',' ∧ c ≠ '\n' ∧ isWS c = false := by
  rcases h with h | rfl
  · refine ⟨?_, ?_, ?_, ?_⟩
    · rintro rfl
      exact absurd h (by decide)
    · rintro rfl
      exact absurd h (by decide)
    · rintro rfl
      exact absurd h (by decide)
    · by_contra hws
      rw [Bool.not_eq_false] at hws
      unfold isWS at hws
      simp only [Bool.or_eq_true, decide_eq_true_eq] at hws
      rcases hws with ((rfl | rfl) | rfl) | rfl <;> exact absurd h (by decide)
  · exact ⟨by decide, by decide, by decide, by decide⟩

/-- The hygiene facts about a valid date string that the round-trip
needs. -/
theorem date_clean {s : String} (h : (epochDay s).isSome = true) :
    s ≠ "" ∧ jsTrim s = s ∧ '\n' ∉ s.data ∧
      (∀ c ∈ s.data, c ≠ '"' ∧ c ≠ ',') ∧
      ∃ c0 rest, s.data = c0 :: rest ∧ isWS c0 = false := by
  obtain ⟨c0, rest, heq, hd0, hall⟩ := date_chars h
  have hclean : ∀ c ∈ s.data, c ≠ '"' ∧ c ≠ ',' ∧ c ≠ '\n' ∧ isWS c = false :=
    fun c hc => dateChar_clean (hall c hc)
  refine ⟨?_, ?_, ?_, ?_, c0, rest, heq, (hclean c0 (heq ▸ List.mem_cons_self _ _)).2.2.2⟩
  · intro hs
    rw [hs] at heq
    exact absurd heq (by simp)
  · exact jsTrim_eq_self_of_all fun c hc => (hclean c hc).2.2.2
  · intro hmem
    exact (hclean _ hmem).2.2.1 rfl
  · exact fun c hc => ⟨(hclean c hc).1, (hclean c hc).2.1⟩

theorem jsTrim_eq_self_of_ends {s : String}
    (h1 : ∀ c, s.data.head? = some c → isWS c = false)
    (h2 : ∀ c, s.data.getLast? = some c → isWS c = false) : jsTrim s = s := by
  unfold jsTrim
  rw [trimChars_eq_self h1 h2]

theorem csvRow_eq {m : MoodEntry} (hq : '"' ∉ m.note.data) :
    csvRow m = m.date ++ "," ++ m.emoji ++ ",\"" ++ m.note ++ "\"" := by
  unfold csvRow
  rw [escQuotes_eq_self hq]

theorem csvRow_data_eq {m : MoodEntry} (hq : '"' ∉ m.note.data) :
    (csvRow m).data =
      (m.date.data ++ ',' :: (m.emoji.data ++ ',' :: '"' :: m.note.data)) ++ ['"'] := by
  rw [csvRow_eq hq]
  simp only [str_data_append, List.append_assoc, List.cons_append, List.nil_append]

theorem csvRow_ne_empty {m : MoodEntry} (h : cleanEntry m) : csvRow m ≠ "" := by
  have hq : '"' ∉ m.note.data := fun hm => (h.2.2.2.1 _ hm).1 rfl
  intro he
  have hdat := congrArg String.data he
  rw [csvRow_data_eq hq] at hdat
  exact absurd hdat (by simp)

theorem csvRow_no_newline {m : MoodEntry} (h : cleanEntry m) :
    '\n' ∉ (csvRow m).data := by
  obtain ⟨hval, hene, hech, hnch, hntrim⟩ := h
  have hq : '"' ∉ m.note.data := fun hm => (hnch _ hm).1 rfl
  obtain ⟨hdne, hdtrim, hdnl, hdqc, c0, rest0, hd0, hws0⟩ := date_clean hval
  intro hmem
  rw [csvRow_data_eq hq] at hmem
  rcases List.mem_append.mp hmem with h1 | h1
  · rcases List.mem_append.mp h1 with h2 | h2
    · exact hdnl h2
    · rcases List.mem_cons.mp h2 with h3 | h3
      · exact absurd h3 (by decide)
      · rcases List.mem_append.mp h3 with h4 | h4
        · exact (hech _ h4).2.2.1 rfl
        · rcases List.mem_cons.mp h4 with h5 | h5
          · exact absurd h5 (by decide)
          · rcases List.mem_cons.mp h5 with h6 | h6
            · exact absurd h6 (by decide)
            · exact (hnch _ h6).2 rfl
  · exact absurd h1 (by decide)

theorem jsTrim_csvRow {m : MoodEntry} (h : cleanEntry m) :
    jsTrim (csvRow m) = csvRow m := by
  have hq : '"' ∉ m.note.data := fun hm => (h.2.2.2.1 _ hm).1 rfl
  obtain ⟨hdne, hdtrim, hdnl, hdqc, c0, rest0, hd0, hws0⟩ := date_clean h.1
  apply jsTrim_eq_self_of_ends
  · intro c hc
    rw [csvRow_data_eq hq, hd0] at hc
    simp only [List.cons_append, List.head?_cons] at hc
    injection hc with hc
    subst hc
    exact hws0
  · intro c hc
    rw [csvRow_data_eq hq, List.getLast?_append_of_ne_nil _ (by simp)] at hc
    rw [show (['"'] : List Char).getLast? = some '"' from rfl] at hc
    injection hc with hc
    subst hc
    decide

theorem parseCSVLine_csvRow {m : MoodEntry} (h : cleanEntry m) :
    parseCSVLine (csvRow m) = [m.date, m.emoji, m.note] := by
  obtain ⟨hval, hene, hech, hnch, hntrim⟩ := h
  have hq : '"' ∉ m.note.data := fun hm => (hnch _ hm).1 rfl
  obtain ⟨hdne, hdtrim, hdnl, hdqc, c0, rest0, hd0, hws0⟩ := date_clean hval
  rw [csvRow_eq hq, parseCSVLine_row _ _ _ hdqc
    (fun c hc => ⟨(hech c hc).1, (hech c hc).2.1⟩) (fun c hc => (hnch c hc).1)]
  rw [hdtrim, jsTrim_eq_self_of_all (fun c hc => (hech c hc).2.2.2), hntrim]

theorem jsAt_cons0 (a b c : String) : jsAt [a, b, c] 0 = a := rfl

theorem jsAt_cons1 (a b c : String) : jsAt [a, b, c] 1 = b := rfl

theorem jsAt_cons2 (a b c : String) : jsAt [a, b, c] 2 = c := rfl

/-- Feeding a clean entry's exported row into the import loop increments
the count and merges the entry via the store's save. -/
theorem importRow_csvRow {m : MoodEntry} (h : cleanEntry m) (now : Int) (k : Nat)
    (cur : List MoodEntry) :
    importRow now 0 1 2 (k, cur) (csvRow m) =
      (k + 1, (saveMood now cur m.date m.emoji m.note).2) := by
  obtain ⟨hval, hene, hech, hnch, hntrim⟩ := h
  have hclean' : cleanEntry m := ⟨hval, hene, hech, hnch, hntrim⟩
  have hq : '"' ∉ m.note.data := fun hm => (hnch _ hm).1 rfl
  obtain ⟨hdne, hdtrim, hdnl, hdqc, c0, rest0, hd0, hws0⟩ := date_clean hval
  have hcond : (m.date ≠ "" && m.emoji ≠ "" && isValidDate m.date) = true := by
    simp only [Bool.and_eq_true, decide_eq_true_eq, ne_eq]
    exact ⟨⟨hdne, hene⟩, hval⟩
  unfold importRow
  rw [jsTrim_csvRow hclean', if_neg (csvRow_ne_empty hclean')]
  dsimp only
  rw [parseCSVLine_csvRow hclean', jsAt_cons0, jsAt_cons1,
    if_pos (show (0:Int) ≤ 2 by decide), jsAt_cons2, if_pos hcond,
    stripOuterQuotes_eq_self hq]

/-- Saving a date absent from the store appends the fresh entry (with
trimmed note and empty tags) up to the re-sorting permutation. -/
theorem saveMood_fresh (now : Int) (cur : List MoodEntry) (date emoji note : String)
    (hfresh : date ∉ cur.map (fun m => m.date)) :
    List.Perm (saveMood now cur date emoji note none).2
      (cur ++ [(⟨date, emoji, jsTrim note, [], now⟩ : MoodEntry)]) := by
  have hfind : cur.find? (fun m => decide (m.date = date)) = none := by
    rw [List.find?_eq_none]
    intro m hm
    simp only [decide_eq_true_eq]
    intro hd
    exact hfresh (hd ▸ List.mem_map_of_mem _ hm)
  unfold saveMood
  rw [hfind]
  dsimp only
  exact List.perm_insertionSort _ _

/-- The import loop over the exported rows of pairwise-distinct clean
entries counts every row and merges every entry (with its tags reset). -/
theorem importFold_roundtrip : ∀ (ms : List MoodEntry) (now : Int) (k : Nat)
    (cur : List MoodEntry),
    (∀ m ∈ ms, cleanEntry m) →
    (cur.map (fun m => m.date) ++ ms.map (fun m => m.date)).Nodup →
    ∃ fin, (ms.map csvRow).foldl (importRow now 0 1 2) (k, cur) =
        (k + ms.length, fin) ∧
      (∀ e ∈ cur, e ∈ fin) ∧
      (∀ m ∈ ms, (⟨m.date, m.emoji, m.note, [], now⟩ : MoodEntry) ∈ fin) ∧
      List.Perm (fin.map (fun m => m.date))
        (cur.map (fun m => m.date) ++ ms.map (fun m => m.date)) := by
  intro ms
  induction ms with
  | nil =>
    intro now k cur _ _
    exact ⟨cur, by simp, fun e he => he, by simp, by simp⟩
  | cons m ms ih =>
    intro now k cur hcl hnd
    simp only [List.map_cons] at hnd
    have hfresh : m.date ∉ cur.map (fun x => x.date) := by
      rw [List.nodup_append] at hnd
      intro hmem
      exact hnd.2.2 hmem (List.mem_cons_self _ _)
    have hm := hcl m (List.mem_cons_self _ _)
    have hnote : jsTrim m.note = m.note := hm.2.2.2.2
    have hstep : (List.map csvRow (m :: ms)).foldl (importRow now 0 1 2) (k, cur)
        = (List.map csvRow ms).foldl (importRow now 0 1 2)
            (k + 1, (saveMood now cur m.date m.emoji m.note).2) := by
      rw [List.map_cons, List.foldl_cons, importRow_csvRow hm]
    have hperm : List.Perm ((saveMood now cur m.date m.emoji m.note).2)
        (cur ++ [(⟨m.date, m.emoji, m.note, [], now⟩ : MoodEntry)]) := by
      have := saveMood_fresh now cur m.date m.emoji m.note hfresh
      rw [hnote] at this
      exact this
    have hdates : List.Perm
        (((saveMood now cur m.date m.emoji m.note).2).map (fun x => x.date))
        (cur.map (fun x => x.date) ++ [m.date]) := by
      have := hperm.map (fun x : MoodEntry => x.date)
      simpa using this
    have hnd' : ((((saveMood now cur m.date m.emoji m.note).2).map
        (fun x => x.date)) ++ ms.map (fun x => x.date)).Nodup := by
      refine ((hdates.append_right _).nodup_iff).mpr ?_
      rw [List.append_assoc]
      exact hnd
    obtain ⟨fin, hfold, hcurmem, hmsmem, hfinperm⟩ :=
      ih now (k + 1) _ (fun x hx => hcl x (List.mem_cons_of_mem _ hx)) hnd'
    refine ⟨fin, ?_, ?_, ?_, ?_⟩
    · rw [hstep, hfold, Prod.ext_iff]
      refine ⟨?_, rfl⟩
      simp only [List.length_cons]
      omega
    · intro e he
      exact hcurmem e (hperm.mem_iff.mpr (List.mem_append_left _ he))
    · intro x hx
      rcases List.mem_cons.mp hx with rfl | hx'
      · exact hcurmem _
          (hperm.mem_iff.mpr (List.mem_append_right _ (List.mem_cons_self _ _)))
      · exact hmsmem x hx'
    · refine hfinperm.trans ?_
      refine (hdates.append_right _).trans ?_
      rw [List.append_assoc]
      simp only [List.map_cons]
      exact List.Perm.refl _

theorem joinLines_head : ∀ (parts : List String) (s : String) (c : Char) (l : List Char),
    s.data = c :: l → (joinLines (s :: parts)).data.head? = some c := by
  intro parts s c l h
  cases parts with
  | nil =>
    show s.data.head? = _
    rw [h]
    rfl
  | cons p rest =>
    show ((s ++ "\n") ++ joinLines (p :: rest)).data.head? = _
    rw [str_data_append, str_data_append, h]
    rfl

theorem joinLines_data_ne_nil : ∀ (rest : List String) (p : String), p ≠ "" →
    (joinLines (p :: rest)).data ≠ [] := by
  intro rest p hp
  cases rest with
  | nil =>
    show p.data ≠ []
    intro h
    exact hp (String.ext h)
  | cons q rest' =>
    show ((p ++ "\n") ++ joinLines (q :: rest')).data ≠ []
    rw [str_data_append, str_data_append]
    simp

theorem joinLines_last_not_ws : ∀ (parts : List String) (s : String),
    (∀ p ∈ s :: parts, p ≠ "") →
    (∀ p ∈ s :: parts, ∀ c, p.data.getLast? = some c → isWS c = false) →
    ∀ c, (joinLines (s :: parts)).data.getLast? = some c → isWS c = false := by
  intro parts
  induction parts with
  | nil =>
    intro s _ h c hc
    exact h s (List.mem_cons_self _ _) c hc
  | cons p rest ih =>
    intro s hne h c hc
    have hjne : (joinLines (p :: rest)).data ≠ [] :=
      joinLines_data_ne_nil rest p (hne p (List.mem_cons_of_mem _ (List.mem_cons_self _ _)))
    rw [show joinLines (s :: p :: rest) = (s ++ "\n") ++ joinLines (p :: rest) from rfl,
      str_data_append, List.getLast?_append_of_ne_nil _ hjne] at hc
    exact ih p (fun q hq => hne q (List.mem_cons_of_mem _ hq))
      (fun q hq => h q (List.mem_cons_of_mem _ hq)) c hc

/-- **C6 (amended).** Importing the exported CSV of a non-empty store of
pairwise-distinct-date clean entries into an empty store succeeds,
counts every entry, and reproduces for each original entry a stored
entry with the same `(date, emoji, note)` triple and empty tags (tags
are not part of the CSV format and are lost). -/
theorem csv_roundtrip (now : Int) (store : List MoodEntry)
    (hne : store ≠ [])
    (hnd : (store.map (fun m => m.date)).Nodup)
    (hclean : ∀ m ∈ store, cleanEntry m) :
    ∃ store', importFromCSV now [] (exportToCSV store) = .ok (store.length, store') ∧
      ∀ m ∈ store, (⟨m.date, m.emoji, m.note, [], now⟩ : MoodEntry) ∈ store' := by
  have hexp : exportToCSV store = joinLines ("Date,Emoji,Note" :: store.map csvRow) := by
    unfold exportToCSV
    rw [if_neg (fun hac => hne (List.isEmpty_iff.mp hac))]
  have hallne : ∀ p ∈ ("Date,Emoji,Note" :: store.map csvRow), p ≠ "" := by
    intro p hp
    rcases List.mem_cons.mp hp with rfl | hp'
    · decide
    · obtain ⟨m, hm, rfl⟩ := List.mem_map.mp hp'
      exact csvRow_ne_empty (hclean m hm)
  have htrim : jsTrim (joinLines ("Date,Emoji,Note" :: store.map csvRow)) =
      joinLines ("Date,Emoji,Note" :: store.map csvRow) := by
    apply jsTrim_eq_self_of_ends
    · intro c hc
      rw [joinLines_head (store.map csvRow) "Date,Emoji,Note" 'D' _ rfl] at hc
      injection hc with hc
      subst hc
      decide
    · apply joinLines_last_not_ws _ _ hallne
      intro p hp c hc
      rcases List.mem_cons.mp hp with rfl | hp'
      · rw [show ("Date,Emoji,Note" : String).data.getLast? = some 'e' from rfl] at hc
        injection hc with hc
        subst hc
        decide
      · obtain ⟨m, hm, rfl⟩ := List.mem_map.mp hp'
        have hq : '"' ∉ m.note.data :=
          fun hmm => ((hclean m hm).2.2.2.1 _ hmm).1 rfl
        rw [csvRow_data_eq hq, List.getLast?_append_of_ne_nil _ (by simp),
          show (['"'] : List Char).getLast? = some '"' from rfl] at hc
        injection hc with hc
        subst hc
        decide
  have hnl : ∀ p ∈ ("Date,Emoji,Note" :: store.map csvRow), '\n' ∉ p.data := by
    intro p hp
    rcases List.mem_cons.mp hp with rfl | hp'
    · decide
    · obtain ⟨m, hm, rfl⟩ := List.mem_map.mp hp'
      exact csvRow_no_newline (hclean m hm)
  have hlines : jsSplit '\n' (jsTrim (exportToCSV store)) =
      "Date,Emoji,Note" :: store.map csvRow := by
    rw [hexp, htrim, jsSplit_joinLines _ _ hnl]
  have hunf : importFromCSV now [] (exportToCSV store) =
      (if (jsSplit '\n' (jsTrim (exportToCSV store))).length < 2 then
        .error "CSV file is empty or has no data rows"
      else if (!jsIncludes (jsToLower ((jsSplit '\n'
          (jsTrim (exportToCSV store))).headD "")) "date" ||
          !jsIncludes (jsToLower ((jsSplit '\n'
            (jsTrim (exportToCSV store))).headD "")) "emoji") then
        .error "CSV must have Date and Emoji columns"
      else .ok (((jsSplit '\n' (jsTrim (exportToCSV store))).drop 1).foldl
        (importRow now
          (jsIndexOf ((jsSplit ','
            (jsToLower ((jsSplit '\n' (jsTrim (exportToCSV store))).headD ""))).map jsTrim) "date")
          (jsIndexOf ((jsSplit ','
            (jsToLower ((jsSplit '\n' (jsTrim (exportToCSV store))).headD ""))).map jsTrim) "emoji")
          (jsIndexOf ((jsSplit ','
            (jsToLower ((jsSplit '\n' (jsTrim (exportToCSV store))).headD ""))).map jsTrim) "note"))
        (0, []))) := rfl
  have hlen : ¬ (("Date,Emoji,Note" :: store.map csvRow).length < 2) := by
    simp only [List.length_cons, List.length_map]
    have hlne : store.length ≠ 0 := fun h0 => hne (List.length_eq_zero.mp h0)
    omega
  rw [hunf, hlines]
  rw [if_neg hlen]
  simp only [List.headD_cons, List.drop_succ_cons, List.drop_zero]
  rw [if_neg (show ¬ ((!jsIncludes (jsToLower "Date,Emoji,Note") "date" ||
    !jsIncludes (jsToLower "Date,Emoji,Note") "emoji") = true) by decide)]
  rw [show jsIndexOf ((jsSplit ',' (jsToLower "Date,Emoji,Note")).map jsTrim) "date"
      = (0 : Int) from by decide,
    show jsIndexOf ((jsSplit ',' (jsToLower "Date,Emoji,Note")).map jsTrim) "emoji"
      = (1 : Int) from by decide,
    show jsIndexOf ((jsSplit ',' (jsToLower "Date,Emoji,Note")).map jsTrim) "note"
      = (2 : Int) from by decide]
  obtain ⟨fin, hfold, _, hmem, _⟩ :=
    importFold_roundtrip store now 0 [] hclean (by simpa using hnd)
  refine ⟨fin, ?_, hmem⟩
  rw [hfold, Nat.zero_add]

/-- Witness for C6 (amended): a one-entry store with a tagged entry
round-trips to a store containing the same `(date, emoji, note)` triple
with the tags gone. -/
theorem csv_roundtrip_witness :
    ∃ store', importFromCSV 7 []
        (exportToCSV [(⟨"2024-01-02", "😊", "hi", ["work"], 5⟩ : MoodEntry)]) =
      .ok (1, store') ∧
      ∀ m ∈ [(⟨"2024-01-02", "😊", "hi", ["work"], 5⟩ : MoodEntry)],
        (⟨m.date, m.emoji, m.note, [], 7⟩ : MoodEntry) ∈ store' :=
  csv_roundtrip 7 [⟨"2024-01-02", "😊", "hi", ["work"], 5⟩]
    (by decide) (by decide)
    (by
      intro m hm
      rcases List.mem_cons.mp hm with rfl | h
      · exact ⟨by decide, by decide, by decide, by decide, by decide⟩
      · exact absurd h (List.not_mem_nil _))

/-- Counterexample for C6 as stated: a note containing a double-quote
character does not survive the round-trip — the export doubles it, but
the import's field parser drops every quote character, so `a"b` comes
back as `ab`. -/
theorem csv_note_quote_counterexample :
    importFromCSV 9 []
        (exportToCSV [(⟨"2024-01-01", "😊", "a\"b", [], 0⟩ : MoodEntry)]) =
      .ok (1, [(⟨"2024-01-01", "😊", "ab", [], 9⟩ : MoodEntry)]) ∧
    "ab" ≠ "a\"b" := ⟨rfl, by decide⟩

end MoodPad
